import Mathlib

/-!
Verification development for the DaosWorldIndexer repository
(token-holder snapshot construction and weighted random winner selection).

The definitions below are a shallow embedding of `src/api.ts`:
JavaScript numbers are modelled as rationals, JavaScript `Map`s as
association lists with the exact get/set/delete semantics, the
cryptographically random 32-bit word as a natural number argument, and
the provider responses (pages, logs, multicall results) as explicit
input lists.  Fallible operations return `Except String`.
-/

deriving instance DecidableEq for Except

namespace DaosWorld

/-- Addresses are hex strings, exactly as in the TypeScript source. -/
abbrev Addr := String

/-- The zero-address sentinel used for mint/burn detection. -/
def zeroAddr : Addr := "0x0000000000000000000000000000000000000000"

/-- JavaScript `String.prototype.toLowerCase` restricted to the
character-wise lowering actually exercised by hex addresses. -/
def lowerStr (s : String) : String := String.mk (s.data.map Char.toLower)

/-- One ERC20 asset-transfer record as consumed from the provider
(`transfer.blockNum`, `transfer.from`, `transfer.to`, `transfer.value`,
`transfer.rawContract.address`). -/
structure Transfer where
  blockNum : Nat
  fromAddr : Addr
  toAddr : Addr
  value : ℚ
  tokenAddress : Addr
deriving DecidableEq

/-- A configured token: contract address plus its liquidity-pool address. -/
structure Token where
  address : Addr
  lpAddress : Addr
deriving DecidableEq

/-- Per-token balance entry of a holder (`{tokenAddress, balance, lpBalance}`). -/
structure TokenBal where
  tokenAddress : Addr
  balance : ℚ
  lpBalance : ℚ
deriving DecidableEq

/-- A holder's snapshot record (`Balance` in `types.ts`). -/
structure Balance where
  holderAddress : Addr
  balances : List TokenBal
deriving DecidableEq

/-- A selected winner (`Winner` in `types.ts`). -/
structure Winner where
  address : Addr
  weight : ℚ
  balances : List Balance
deriving DecidableEq

/-- `Math.abs` (kernel-reducible form). -/
def qAbs (v : ℚ) : ℚ := if v < 0 then -v else v

/-- `Math.max` (kernel-reducible form). -/
def qMax (a b : ℚ) : ℚ := if a ≤ b then b else a

theorem qAbs_eq_abs (v : ℚ) : qAbs v = |v| := by
  by_cases h : v < 0
  · rw [qAbs, if_pos h, abs_of_neg h]
  · rw [qAbs, if_neg h, abs_of_nonneg (not_lt.mp h)]

theorem qMax_eq_max (a b : ℚ) : qMax a b = max a b := by
  by_cases h : a ≤ b
  · rw [qMax, if_pos h, max_eq_right h]
  · rw [qMax, if_neg h, max_eq_left (le_of_not_le h)]

/-- `normalizeToEther` from `api.ts`: values whose magnitude exceeds
`1e18` are treated as wei-scaled and divided by `1e18`. -/
def normalizeToEther (v : ℚ) : ℚ :=
  if 10 ^ 18 < qAbs v then v / 10 ^ 18 else v

/-! ### JavaScript `Map` semantics on association lists -/

/-- `Map.get` (first entry with the key, insertion order). -/
def mGet : List (Addr × α) → Addr → Option α
  | [], _ => none
  | p :: t, k => if p.1 == k then some p.2 else mGet t k

/-- `Map.set`: replace the value in place when the key is present,
otherwise append a fresh entry. -/
def mSet (m : List (Addr × α)) (k : Addr) (v : α) : List (Addr × α) :=
  if m.any (fun p => p.1 == k) then
    m.map (fun p => if p.1 == k then (k, v) else p)
  else
    m ++ [(k, v)]

/-- `Map.delete`. -/
def mDel (m : List (Addr × α)) (k : Addr) : List (Addr × α) :=
  m.filter (fun p => ! (p.1 == k))

/-! ### Stable sorting

`Array.prototype.sort` is stable; we model the two comparators used by
the source (`(a, b) => Number(a.blockNum) - Number(b.blockNum)` and
`(a, b) => b.weight - a.weight`) with a stable insertion sort. -/

/-- Insert `a` after every element `x` with `le x a` (stable insert). -/
def insertLe (le : α → α → Bool) (a : α) : List α → List α
  | [] => [a]
  | x :: xs => if le x a then x :: insertLe le a xs else a :: x :: xs

/-- Stable insertion sort for a boolean total preorder `le`. -/
def sortLe (le : α → α → Bool) (l : List α) : List α :=
  l.foldl (fun acc a => insertLe le a acc) []

/-- Sort transfers ascending by block number (stable). -/
def sortTransfers (l : List Transfer) : List Transfer :=
  sortLe (fun a b => a.blockNum ≤ b.blockNum) l

/-- Sort winners descending by weight (stable). -/
def sortWinnersDesc (l : List Winner) : List Winner :=
  sortLe (fun a b => b.weight ≤ a.weight) l

/-! ### Balance ledger replay (`snapshotHolders`, token loop)

Two views of the same inner loop are developed.  `applyTransfer` is the
per-token replay on a total balance function (JavaScript `get(...) || 0`
semantics), used for the conservation and order-independence claims.
`snapshotHolders` below embeds the full function with the nested-`Map`
state, the LP merge, LP-address deletion, and the output conversion. -/

/-- Pointwise function update used by the functional replay view. -/
def updateF (f : Addr → ℚ) (k : Addr) (v : ℚ) : Addr → ℚ :=
  fun a => if a = k then v else f a

/-- The all-zero initial balance assignment. -/
def zeroBal : Addr → ℚ := fun _ => 0

/-- One transfer applied to a single token's balance assignment: if the
sender is not the zero address, debit it floored at zero; if the
receiver is not the zero address, credit it. -/
def applyTransfer (bal : Addr → ℚ) (t : Transfer) : Addr → ℚ :=
  let amount := normalizeToEther t.value
  let b1 :=
    if t.fromAddr = zeroAddr then bal
    else updateF bal t.fromAddr (qMax 0 (bal t.fromAddr - amount))
  if t.toAddr = zeroAddr then b1
  else updateF b1 t.toAddr (b1 t.toAddr + amount)

/-- Replay a transfer sequence over a balance assignment. -/
def replay (bal : Addr → ℚ) (ts : List Transfer) : Addr → ℚ :=
  ts.foldl applyTransfer bal

/-! ### Full `snapshotHolders` with nested `Map` state -/

/-- Amounts stored per holder and token (`{balance, lpBalance}`). -/
structure Amt where
  balance : ℚ
  lpBalance : ℚ
deriving DecidableEq

/-- The nested holder state: `Map<string, Map<string, Amt>>`. -/
abbrev HolderMap := List (Addr × List (Addr × Amt))

/-- One transfer applied to the nested holder state for a given token
(the body of the inner loop of `snapshotHolders`). -/
def applyTransferMap (tokenAddress : Addr) (m : HolderMap) (t : Transfer) : HolderMap :=
  let amount := normalizeToEther t.value
  let m1 :=
    if t.fromAddr == zeroAddr then m
    else
      let senderBalances := (mGet m t.fromAddr).getD []
      let current := ((mGet senderBalances tokenAddress).map (fun a => a.balance)).getD 0
      let lp := ((mGet senderBalances tokenAddress).map (fun a => a.lpBalance)).getD 0
      mSet m t.fromAddr (mSet senderBalances tokenAddress ⟨qMax 0 (current - amount), lp⟩)
  if t.toAddr == zeroAddr then m1
  else
    let receiverBalances := (mGet m1 t.toAddr).getD []
    let current := ((mGet receiverBalances tokenAddress).map (fun a => a.balance)).getD 0
    let lp := ((mGet receiverBalances tokenAddress).map (fun a => a.lpBalance)).getD 0
    mSet m1 t.toAddr (mSet receiverBalances tokenAddress ⟨current + amount, lp⟩)

/-- The per-token pass: filter the transfers to the token (addresses
compared lowercased), sort stably by block number, and replay. -/
def snapshotToken (transfers : List Transfer) (m : HolderMap) (token : Token) : HolderMap :=
  let tokenTransfers :=
    sortTransfers (transfers.filter
      (fun t => lowerStr t.tokenAddress == lowerStr token.address))
  tokenTransfers.foldl (applyTransferMap token.address) m

/-- Merge one LP holder's derived balances into the state (the
`includeLPs` branch of `snapshotHolders`): the `lpBalance` field is
overwritten with the derived value, the `balance` field kept. -/
def mergeLPHolder (m : HolderMap) (lpHolder : Balance) : HolderMap :=
  let holderBalance := (mGet m lpHolder.holderAddress).getD []
  let updated := lpHolder.balances.foldl
    (fun hb b =>
      let existing := (mGet hb b.tokenAddress).getD ⟨0, 0⟩
      mSet hb b.tokenAddress ⟨existing.balance, b.lpBalance⟩)
    holderBalance
  mSet m lpHolder.holderAddress updated

/-- Convert the final nested state into the returned `Balance[]`:
drop entries with no positive field and holders with no entries. -/
def holderMapToBalances (m : HolderMap) : List Balance :=
  (m.map (fun p =>
    ({ holderAddress := p.1
       balances := (p.2.map (fun q =>
         ({ tokenAddress := q.1, balance := q.2.balance, lpBalance := q.2.lpBalance } : TokenBal)))
         |>.filter (fun b => 0 < b.balance ∨ 0 < b.lpBalance) } : Balance)))
    |>.filter (fun h => ¬ h.balances = [])

/-- `snapshotHolders` from `api.ts`, as a pure function of the fetched
transfers and (when `includeLPs`) the LP-derived balances: replay every
token, merge LP balances, delete each configured LP address
(lowercased), and convert to the output records. -/
def snapshotHolders (transfers : List Transfer) (tokens : List Token)
    (includeLPs : Bool) (lpBalances : List Balance) : List Balance :=
  let m := tokens.foldl (snapshotToken transfers) []
  let m2 := if includeLPs then lpBalances.foldl mergeLPHolder m else m
  let m3 := (tokens.map (fun t => lowerStr t.lpAddress)).foldl mDel m2
  holderMapToBalances m3

/-! ### The weighted selector (`getWeightedRandomIndex`, `getRandomWinners`) -/

/-- `weights.reduce((sum, weight) => sum + Math.max(0, weight), 0)`. -/
def sumPosWeights (weights : List ℚ) : ℚ :=
  weights.foldl (fun s w => s + qMax 0 w) 0

/-- The prefix-subtraction scan of `getWeightedRandomIndex`: skip
negative weights, subtract each non-negative weight from `random`, and
return the current index as soon as the remainder is `≤ 0`. -/
def scanIndex : List ℚ → ℚ → Nat → Option Nat
  | [], _, _ => none
  | w :: rest, random, i =>
    if w < 0 then scanIndex rest random (i + 1)
    else if random - w ≤ 0 then some i
    else scanIndex rest (random - w) (i + 1)

/-- `getWeightedRandomIndex` from `api.ts`.  The cryptographically
random 32-bit word is the explicit argument `r`; the source computes
`random = (r / 0xffffffff) * totalWeight`. -/
def getWeightedRandomIndex (weights : List ℚ) (r : Nat) : Except String Nat :=
  if weights.length = 0 then .error "Weights array cannot be empty"
  else
    let totalWeight := sumPosWeights weights
    if totalWeight ≤ 0 then .error "Total weight must be positive"
    else
      match scanIndex weights ((r : ℚ) / 4294967295 * totalWeight) 0 with
      | some i => .ok i
      | none => .error "Failed to select weighted random index"

/-- The weight computation of `getRandomWinners`:
`holder.balances.reduce((sum, b) => sum + normalizeToEther(b.balance)
 + lpWeight * normalizeToEther(b.lpBalance), 0)`. -/
def weightOf (lpWeight : ℚ) (holder : Balance) : ℚ :=
  holder.balances.foldl
    (fun sum b => sum + normalizeToEther b.balance + lpWeight * normalizeToEther b.lpBalance) 0

/-- `holders.map((holder) => ({address, weight, balances: [holder]}))`. -/
def holdersWithWeights (lpWeight : ℚ) (holders : List Balance) : List Winner :=
  holders.map (fun h => ⟨h.holderAddress, weightOf lpWeight h, [h]⟩)

/-- The selection loop of `getRandomWinners`.  Each iteration consumes
one random 32-bit word from `draws`; the run is truncated (returning the
winners selected so far) when the modelled randomness is exhausted. -/
def selLoop (pop : List Winner) (k : Nat) :
    List Nat → List ℚ → List Winner → Except String (List Winner)
  | [], _, selected => .ok selected
  | r :: rest, weights, selected =>
    if selected.length < k ∧ selected.length < pop.length then
      match getWeightedRandomIndex weights r with
      | .error e => .error e
      | .ok i =>
        match pop[i]? with
        | none => .error "selected index out of range"
        | some winner =>
          if selected.any (fun s => s.address == winner.address) then
            selLoop pop k rest weights selected
          else
            selLoop pop k rest (weights.set i 0) (selected ++ [winner])
    else .ok selected

/-- The pure core of `getRandomWinners`: weight assignment, descending
sort, the `numberOfWinners >= population` early return, and the
without-replacement selection loop followed by the final descending
sort. -/
def getRandomWinners (holders : List Balance) (lpWeight : ℚ) (numberOfWinners : Nat)
    (draws : List Nat) : Except String (List Winner) :=
  let hw := sortWinnersDesc (holdersWithWeights lpWeight holders)
  if numberOfWinners ≥ hw.length then .ok hw
  else
    match selLoop hw numberOfWinners draws (hw.map (fun h => h.weight)) [] with
    | .error e => .error e
    | .ok sel => .ok (sortWinnersDesc sel)

/-! ### General helper lemmas -/

/-- Folding a function that ignores the elements refused by `p` is the
same as folding over the filtered list. -/
theorem foldl_filter_id (f : β → α → β) (p : α → Bool) :
    ∀ (l : List α) (b : β), (∀ a ∈ l, p a = false → ∀ c, f c a = c) →
      l.foldl f b = (l.filter p).foldl f b := by
  intro l
  induction l with
  | nil => intro b _; rfl
  | cons a t ih =>
    intro b h
    by_cases hp : p a = true
    · rw [List.foldl_cons, List.filter_cons, if_pos hp, List.foldl_cons]
      exact ih (f b a) (fun x hx hpx => h x (List.mem_cons_of_mem a hx) hpx)
    · have hfa : p a = false := by
        cases hpa : p a
        · rfl
        · exact absurd hpa hp
      rw [List.foldl_cons, h a (List.mem_cons_self a t) hfa,
        List.filter_cons, if_neg (by simp [hfa])]
      exact ih b (fun x hx hpx => h x (List.mem_cons_of_mem a hx) hpx)

/-- Recursive form of the positive-part total weight. -/
def sumPosRec : List ℚ → ℚ
  | [] => 0
  | w :: t => qMax 0 w + sumPosRec t

theorem sumPosWeights_eq_rec (l : List ℚ) : sumPosWeights l = sumPosRec l := by
  have key : ∀ (l : List ℚ) (s : ℚ),
      l.foldl (fun s w => s + qMax 0 w) s = s + sumPosRec l := by
    intro l
    induction l with
    | nil => intro s; simp [sumPosRec]
    | cons w t ih => intro s; rw [List.foldl_cons, ih, sumPosRec]; ring
  rw [sumPosWeights, key, zero_add]

theorem qMax_nonneg_left (w : ℚ) : 0 ≤ qMax 0 w := by
  rw [qMax_eq_max]; exact le_max_left 0 w

theorem sumPosRec_nonneg (l : List ℚ) : 0 ≤ sumPosRec l := by
  induction l with
  | nil => exact le_refl 0
  | cons w t ih => rw [sumPosRec]; have := qMax_nonneg_left w; linarith

/-- The prefix-subtraction scan always finds an index once the remaining
random mass is at most the positive-part total weight and that total is
positive. -/
theorem scanIndex_isSome : ∀ (l : List ℚ) (random : ℚ) (i : Nat),
    random ≤ sumPosRec l → 0 < sumPosRec l → (scanIndex l random i).isSome = true := by
  intro l
  induction l with
  | nil =>
    intro random i _ hpos
    exact absurd hpos (by rw [sumPosRec]; exact lt_irrefl 0)
  | cons w t ih =>
    intro random i hle hpos
    rw [sumPosRec] at hle hpos
    by_cases hw : w < 0
    · have hmax : qMax 0 w = 0 := by
        rw [qMax_eq_max, max_eq_left (le_of_lt hw)]
      rw [scanIndex, if_pos hw]
      exact ih random (i + 1) (by linarith [hle, hmax.symm.le]) (by rw [hmax] at hpos; linarith)
    · have hmax : qMax 0 w = w := by
        rw [qMax_eq_max, max_eq_right (not_lt.mp hw)]
      rw [scanIndex, if_neg hw]
      by_cases hr : random - w ≤ 0
      · rw [if_pos hr]; rfl
      · rw [if_neg hr]
        have h1 : random - w ≤ sumPosRec t := by rw [hmax] at hle; linarith
        have h2 : 0 < sumPosRec t := by
          have := not_le.mp hr
          linarith
        exact ih (random - w) (i + 1) h1 h2

unseal Rat.mul Rat.inv Rat.add Rat.sub in
/-- Claim C3: the spec states that `getWeightedRandomIndex` over the
weights `[0, 0, 100]` always returns index 2, but when the random
32-bit word is 0 the scan stops at the first zero-weight entry and
returns index 0; for every non-zero random word the result is indeed
index 2 (shown here at the two boundary draws 1 and 4294967295). -/
theorem claim_C3_zero_draw_selects_index_zero :
    getWeightedRandomIndex [0, 0, 100] 0 = .ok 0
    ∧ getWeightedRandomIndex [0, 0, 100] 1 = .ok 2
    ∧ getWeightedRandomIndex [0, 0, 100] 4294967295 = .ok 2 := by
  refine ⟨by decide, by decide, by decide⟩

unseal Rat.mul Rat.inv Rat.add Rat.sub in
/-- Claim C5 counterexample: an empty population given to the
winner-selection operation does not raise an error; `getRandomWinners`
returns the empty population immediately (here with a positive LP
weight, a positive requested count and an available draw). -/
theorem claim_C5_counterexample : getRandomWinners [] 1 3 [0] = .ok [] := by decide

/-- Claim C5 (amended): the selector raises an error exactly on an
empty weight set or a weight set whose total positive weight is not
positive; an empty population does not raise: the winner-selection
returns the empty list as a result. -/
theorem claim_C5_amended :
    (∀ (weights : List ℚ) (r : Nat), r ≤ 4294967295 →
      ((getWeightedRandomIndex weights r).isOk = false
        ↔ weights = [] ∨ sumPosWeights weights ≤ 0))
    ∧ ∀ (lpw : ℚ) (k : Nat) (draws : List Nat),
        getRandomWinners [] lpw k draws = .ok [] := by
  constructor
  · intro weights r hr
    by_cases h1 : weights.length = 0
    · have : weights = [] := List.length_eq_zero.mp h1
      rw [getWeightedRandomIndex, if_pos h1]
      simp [Except.isOk, Except.toBool, this]
    · have hne : ¬ weights = [] := fun h => h1 (by rw [h]; rfl)
      by_cases h2 : sumPosWeights weights ≤ 0
      · rw [getWeightedRandomIndex, if_neg h1]
        simp only [if_pos h2]
        simp [Except.isOk, Except.toBool, h2]
      · have hpos : 0 < sumPosWeights weights := not_le.mp h2
        have hposrec : 0 < sumPosRec weights := by
          rw [← sumPosWeights_eq_rec]; exact hpos
        have hdivle : ((r : ℚ)) / 4294967295 ≤ 1 := by
          rw [div_le_one (by norm_num)]
          exact_mod_cast hr
        have hdivnn : 0 ≤ ((r : ℚ)) / 4294967295 := by positivity
        have hrle : (r : ℚ) / 4294967295 * sumPosWeights weights ≤ sumPosRec weights := by
          rw [← sumPosWeights_eq_rec]
          calc (r : ℚ) / 4294967295 * sumPosWeights weights
              ≤ 1 * sumPosWeights weights :=
                mul_le_mul_of_nonneg_right hdivle (le_of_lt hpos)
            _ = sumPosWeights weights := one_mul _
        have hsome := scanIndex_isSome weights ((r : ℚ) / 4294967295 * sumPosWeights weights) 0
          hrle hposrec
        obtain ⟨j, hj⟩ := Option.isSome_iff_exists.mp hsome
        rw [getWeightedRandomIndex, if_neg h1]
        simp only [if_neg h2]
        rw [hj]
        simp [Except.isOk, Except.toBool, hne, h2]
  · intro lpw k draws
    have : sortWinnersDesc (holdersWithWeights lpw []) = [] := rfl
    rw [getRandomWinners]
    simp [this]

unseal Rat.mul Rat.inv Rat.add Rat.sub in
/-- Witness for the amended claim C5 at concrete inputs: the weight
list `[1]` with draw 0 does not error, and the weight list `[]` errors. -/
theorem claim_C5_witness :
    ((getWeightedRandomIndex [1] 0).isOk = false ↔ ([1] : List ℚ) = [] ∨ sumPosWeights [1] ≤ 0)
    ∧ getRandomWinners [] (1 : ℚ) 2 [5] = .ok [] :=
  ⟨claim_C5_amended.1 [1] 0 (by norm_num), claim_C5_amended.2 1 2 [5]⟩

/-- The weight fold of `getRandomWinners` equals the sum of the
re-normalized per-token contributions. -/
theorem weightOf_eq_sum (w : ℚ) (h : Balance) :
    weightOf w h = (h.balances.map
      (fun b => normalizeToEther b.balance + w * normalizeToEther b.lpBalance)).sum := by
  have key : ∀ (l : List TokenBal) (s : ℚ),
      l.foldl (fun sum b =>
        sum + normalizeToEther b.balance + w * normalizeToEther b.lpBalance) s
      = s + (l.map
          (fun b => normalizeToEther b.balance + w * normalizeToEther b.lpBalance)).sum := by
    intro l
    induction l with
    | nil => intro s; simp
    | cons b t ih => intro s; rw [List.foldl_cons, ih, List.map_cons, List.sum_cons]; ring
  rw [weightOf, key, zero_add]

def c1Tokens : List Token := [⟨"0xt", "0xl"⟩]

/-- Two mints of `1e18` raw units to the same holder: each passes the
magnitude heuristic unscaled, so the snapshot balance is `2e18`. -/
def c1Transfers : List Transfer :=
  [⟨1, zeroAddr, "0xa", 10 ^ 18, "0xt"⟩, ⟨2, zeroAddr, "0xa", 10 ^ 18, "0xt"⟩]

unseal Rat.mul Rat.inv Rat.add Rat.sub in
/-- Claim C1 counterexample: the snapshot produced by `snapshotHolders`
holds the balance `2e18` for the holder, but the weight assigned by
`getRandomWinners` (with LP multiplier 0) is `normalizeToEther (2e18) = 2`,
not the claimed `2e18 = Σ (tokenBalance + w × lpBalance)`. -/
theorem claim_C1_counterexample :
    snapshotHolders c1Transfers c1Tokens false [] = [⟨"0xa", [⟨"0xt", 2 * 10 ^ 18, 0⟩]⟩]
    ∧ getRandomWinners (snapshotHolders c1Transfers c1Tokens false []) 0 1 []
        = .ok [⟨"0xa", 2, [⟨"0xa", [⟨"0xt", 2 * 10 ^ 18, 0⟩]⟩]⟩]
    ∧ (([(⟨"0xt", 2 * 10 ^ 18, 0⟩ : TokenBal)].map
        (fun b => b.balance + 0 * b.lpBalance)).sum = 2 * 10 ^ 18)
    ∧ (2 : ℚ) ≠ 2 * 10 ^ 18 := by
  refine ⟨by decide, by decide, by decide, by decide⟩

/-- Claim C1 (amended): for every merged snapshot and multiplier
`w ≥ 0`, the weight `getRandomWinners` assigns to a holder is the sum
over the holder's token entries of
`normalizeToEther tokenBalance + w * normalizeToEther lpBalance`
(the balances are re-normalized before being summed). -/
theorem claim_C1_amended (holders : List Balance) (w : ℚ) (hw : 0 ≤ w) :
    ∀ win ∈ holdersWithWeights w holders, ∀ hb ∈ win.balances,
      win.weight = (hb.balances.map
        (fun b => normalizeToEther b.balance + w * normalizeToEther b.lpBalance)).sum := by
  intro win hwin hb hhb
  obtain ⟨h0, hmem, hEq⟩ := List.mem_map.mp hwin
  subst hEq
  simp only [List.mem_singleton] at hhb
  subst hhb
  exact weightOf_eq_sum w hb

unseal Rat.mul Rat.inv Rat.add Rat.sub in
/-- Witness for the amended claim C1 at a concrete snapshot. -/
theorem claim_C1_witness :
    (⟨"0xa", 7, [⟨"0xa", [⟨"0xt", 7, 0⟩]⟩]⟩ : Winner).weight
      = (([(⟨"0xt", 7, 0⟩ : TokenBal)]).map
          (fun b => normalizeToEther b.balance + 2 * normalizeToEther b.lpBalance)).sum :=
  claim_C1_amended [⟨"0xa", [⟨"0xt", 7, 0⟩]⟩] 2 (by norm_num)
    ⟨"0xa", 7, [⟨"0xa", [⟨"0xt", 7, 0⟩]⟩]⟩ (by decide)
    ⟨"0xa", [⟨"0xt", 7, 0⟩]⟩ (by decide)

/-! ### Sorting lemmas for the stable insertion sort -/

theorem mem_insertLe (le : α → α → Bool) (a b : α) :
    ∀ l, b ∈ insertLe le a l ↔ b = a ∨ b ∈ l := by
  intro l
  induction l with
  | nil => simp [insertLe]
  | cons x xs ih =>
    rw [insertLe]
    by_cases h : le x a = true
    · rw [if_pos h]
      simp only [List.mem_cons, ih]
      tauto
    · rw [if_neg h]
      simp only [List.mem_cons]

theorem insertLe_perm (le : α → α → Bool) (a : α) :
    ∀ l, (insertLe le a l).Perm (a :: l) := by
  intro l
  induction l with
  | nil => exact List.Perm.refl _
  | cons x xs ih =>
    rw [insertLe]
    by_cases h : le x a = true
    · rw [if_pos h]
      exact (ih.cons x).trans (List.Perm.swap a x xs)
    · rw [if_neg h]

theorem sortLe_perm (le : α → α → Bool) (l : List α) : (sortLe le l).Perm l := by
  have aux : ∀ (l : List α) (acc : List α),
      (l.foldl (fun acc a => insertLe le a acc) acc).Perm (acc ++ l) := by
    intro l
    induction l with
    | nil => intro acc; simp
    | cons a t ih =>
      intro acc
      rw [List.foldl_cons]
      exact ((ih (insertLe le a acc)).trans
        (((insertLe_perm le a acc).append_right t).trans List.perm_middle.symm))
  have := aux l []
  simpa [sortLe] using this

theorem pairwise_insertLe (le : α → α → Bool)
    (htot : ∀ a b, le a b = true ∨ le b a = true)
    (htrans : ∀ a b c, le a b = true → le b c = true → le a c = true) (a : α) :
    ∀ l, l.Pairwise (fun x y => le x y = true) →
      (insertLe le a l).Pairwise (fun x y => le x y = true) := by
  intro l
  induction l with
  | nil => intro _; simp [insertLe]
  | cons x xs ih =>
    intro hp
    rcases List.pairwise_cons.mp hp with ⟨hx, hxs⟩
    rw [insertLe]
    by_cases h : le x a = true
    · rw [if_pos h]
      refine List.pairwise_cons.mpr ⟨?_, ih hxs⟩
      intro b hb
      rcases (mem_insertLe le a b xs).mp hb with hba | hbmem
      · rw [hba]; exact h
      · exact hx b hbmem
    · rw [if_neg h]
      have hax : le a x = true := (htot a x).resolve_right h
      refine List.pairwise_cons.mpr ⟨?_, hp⟩
      intro b hb
      rcases List.mem_cons.mp hb with hbx | hbmem
      · rw [hbx]; exact hax
      · exact htrans a x b hax (hx b hbmem)

theorem pairwise_sortLe (le : α → α → Bool)
    (htot : ∀ a b, le a b = true ∨ le b a = true)
    (htrans : ∀ a b c, le a b = true → le b c = true → le a c = true) (l : List α) :
    (sortLe le l).Pairwise (fun x y => le x y = true) := by
  have aux : ∀ (l : List α) (acc : List α),
      acc.Pairwise (fun x y => le x y = true) →
      (l.foldl (fun acc a => insertLe le a acc) acc).Pairwise (fun x y => le x y = true) := by
    intro l
    induction l with
    | nil => intro acc h; exact h
    | cons a t ih =>
      intro acc h
      rw [List.foldl_cons]
      exact ih (insertLe le a acc) (pairwise_insertLe le htot htrans a acc h)
  exact aux l [] List.Pairwise.nil

theorem sortWinnersDesc_perm (l : List Winner) : (sortWinnersDesc l).Perm l := by
  rw [sortWinnersDesc]
  exact sortLe_perm _ l

theorem length_sortWinnersDesc (l : List Winner) : (sortWinnersDesc l).length = l.length :=
  (sortWinnersDesc_perm l).length_eq

/-! ### The selection loop invariant -/

theorem selLoop_ok_invariant (pop : List Winner) (k : Nat) :
    ∀ (draws : List Nat) (weights : List ℚ) (selected res : List Winner),
      selLoop pop k draws weights selected = .ok res →
      (selected.map (fun s => s.address)).Nodup →
      selected.length ≤ k →
      (res.map (fun s => s.address)).Nodup ∧ res.length ≤ k := by
  intro draws
  induction draws with
  | nil =>
    intro weights selected res h hn hl
    rw [selLoop] at h
    injection h with h
    subst h
    exact ⟨hn, hl⟩
  | cons r rest ih =>
    intro weights selected res h hn hl
    rw [selLoop] at h
    by_cases hg : selected.length < k ∧ selected.length < pop.length
    · rw [if_pos hg] at h
      cases hgw : getWeightedRandomIndex weights r with
      | error e => rw [hgw] at h; exact absurd h (by simp)
      | ok i =>
        rw [hgw] at h
        dsimp only at h
        cases hpi : pop[i]? with
        | none => rw [hpi] at h; exact absurd h (by simp)
        | some winner =>
          rw [hpi] at h
          dsimp only at h
          by_cases hmem : selected.any (fun s => s.address == winner.address) = true
          · rw [if_pos hmem] at h
            exact ih weights selected res h hn hl
          · rw [if_neg hmem] at h
            refine ih _ _ res h ?_ ?_
            · rw [List.map_append]
              have hnot : winner.address ∉ selected.map (fun s => s.address) := by
                intro hc
                obtain ⟨s, hs, hseq⟩ := List.mem_map.mp hc
                exact hmem (List.any_eq_true.mpr ⟨s, hs, by simp [hseq]⟩)
              simp [List.nodup_append, hn, hnot]
            · rw [List.length_append]
              have := hg.1
              simp only [List.length_singleton]
              omega
    · rw [if_neg hg] at h
      injection h with h
      subst h
      exact ⟨hn, hl⟩

def c2Holders : List Balance :=
  [⟨"0xa", [⟨"0xt", 3, 0⟩]⟩, ⟨"0xb", [⟨"0xt", 2, 0⟩]⟩, ⟨"0xc", [⟨"0xt", 1, 0⟩]⟩]

def c2WinA : Winner := ⟨"0xa", 3, [⟨"0xa", [⟨"0xt", 3, 0⟩]⟩]⟩

unseal Rat.mul Rat.inv Rat.add Rat.sub in
/-- Claim C2 counterexample: a population of three distinct holders
with positive weights, requested count 2, and the all-zero draw
sequence.  Every zero draw re-selects index 0 (already a winner), so
after five draws only one winner has been selected, and the loop state
is a fixed point under a further zero draw: the code never terminates
with the requested 2 winners on this draw sequence. -/
theorem claim_C2_counterexample :
    ((c2Holders.map (fun h => h.holderAddress)).Nodup
      ∧ c2Holders.all (fun h => decide (0 < weightOf 0 h)) = true
      ∧ 0 < 2 ∧ 2 < c2Holders.length)
    ∧ getRandomWinners c2Holders 0 2 (List.replicate 5 0) = .ok [c2WinA]
    ∧ selLoop (sortWinnersDesc (holdersWithWeights 0 c2Holders)) 2 [0]
        (((sortWinnersDesc (holdersWithWeights 0 c2Holders)).map (fun h => h.weight)).set 0 0)
        [c2WinA] = .ok [c2WinA] := by
  refine ⟨⟨by decide, by decide, by decide, by decide⟩, by decide, by decide⟩

/-- Claim C2 (amended): for every population with pairwise-distinct
addresses and positive weights and every requested count `0 < k < n`,
any successful run of `getRandomWinners` (for any finite sequence of
draws) returns at most `k` winners with pairwise-distinct addresses,
sorted by descending weight; exactly `k` is reached only when the draw
sequence suffices, and termination is not guaranteed for every draw
sequence (see the counterexample). -/
theorem claim_C2_amended (holders : List Balance) (lpw : ℚ) (k : Nat) (draws : List Nat)
    (hdist : (holders.map (fun h => h.holderAddress)).Nodup)
    (hpos : ∀ h ∈ holders, 0 < weightOf lpw h)
    (hk : 0 < k) (hkn : k < holders.length) :
    ∀ res, getRandomWinners holders lpw k draws = .ok res →
      res.length ≤ k ∧ (res.map (fun s => s.address)).Nodup
        ∧ res.Pairwise (fun a b => b.weight ≤ a.weight) := by
  intro res h
  rw [getRandomWinners] at h
  have hlen : (sortWinnersDesc (holdersWithWeights lpw holders)).length = holders.length := by
    rw [length_sortWinnersDesc, holdersWithWeights, List.length_map]
  have hcond : ¬ (k ≥ (sortWinnersDesc (holdersWithWeights lpw holders)).length) := by
    rw [hlen]; omega
  rw [if_neg hcond] at h
  cases hsel : selLoop (sortWinnersDesc (holdersWithWeights lpw holders)) k draws
      ((sortWinnersDesc (holdersWithWeights lpw holders)).map (fun h => h.weight)) [] with
  | error e => rw [hsel] at h; exact absurd h (by simp)
  | ok sel =>
    rw [hsel] at h
    injection h with h
    subst h
    obtain ⟨hnodup, hlenk⟩ := selLoop_ok_invariant _ k draws _ [] sel hsel (by simp) (by simp)
    refine ⟨?_, ?_, ?_⟩
    · rw [length_sortWinnersDesc]; exact hlenk
    · exact ((sortWinnersDesc_perm sel).map (fun s => s.address)).nodup_iff.mpr hnodup
    · have htot : ∀ a b : Winner,
          (decide (b.weight ≤ a.weight)) = true ∨ (decide (a.weight ≤ b.weight)) = true := by
        intro a b
        rcases le_total b.weight a.weight with hle | hle
        · exact Or.inl (decide_eq_true hle)
        · exact Or.inr (decide_eq_true hle)
      have htrans : ∀ a b c : Winner,
          (decide (b.weight ≤ a.weight)) = true → (decide (c.weight ≤ b.weight)) = true →
          (decide (c.weight ≤ a.weight)) = true := by
        intro a b c h1 h2
        exact decide_eq_true (le_trans (of_decide_eq_true h2) (of_decide_eq_true h1))
      have hps := pairwise_sortLe (fun a b => decide (b.weight ≤ a.weight))
        (fun a b => htot a b) (fun a b c => htrans a b c) sel
      rw [sortWinnersDesc]
      exact hps.imp (fun h => of_decide_eq_true h)

unseal Rat.mul Rat.inv Rat.add Rat.sub in
/-- Witness for the amended claim C2: three holders, two requested
winners, two maximal draws select the two lightest holders; the run
succeeds and its conclusions hold at this input. -/
theorem claim_C2_witness :
    ([⟨"0xb", 2, [⟨"0xb", [⟨"0xt", 2, 0⟩]⟩]⟩,
      ⟨"0xc", 1, [⟨"0xc", [⟨"0xt", 1, 0⟩]⟩]⟩] : List Winner).length ≤ 2
    ∧ (([⟨"0xb", 2, [⟨"0xb", [⟨"0xt", 2, 0⟩]⟩]⟩,
        ⟨"0xc", 1, [⟨"0xc", [⟨"0xt", 1, 0⟩]⟩]⟩] : List Winner).map
          (fun s => s.address)).Nodup
    ∧ ([⟨"0xb", 2, [⟨"0xb", [⟨"0xt", 2, 0⟩]⟩]⟩,
        ⟨"0xc", 1, [⟨"0xc", [⟨"0xt", 1, 0⟩]⟩]⟩] : List Winner).Pairwise
          (fun a b => b.weight ≤ a.weight) :=
  claim_C2_amended c2Holders 0 2 [4294967295, 4294967295]
    (by decide) (by decide) (by decide) (by decide)
    [⟨"0xb", 2, [⟨"0xb", [⟨"0xt", 2, 0⟩]⟩]⟩, ⟨"0xc", 1, [⟨"0xc", [⟨"0xt", 1, 0⟩]⟩]⟩]
    (by decide)

/-! ### Conservation and non-negativity of the balance replay (C4) -/

/-- Sum of a balance assignment over a finite address universe. -/
def sumOver (univ : List Addr) (f : Addr → ℚ) : ℚ := (univ.map f).sum

/-- Total (normalized) amount minted: transfers whose sender is the
zero address. -/
def mintedQ : List Transfer → ℚ
  | [] => 0
  | t :: ts => (if t.fromAddr = zeroAddr then normalizeToEther t.value else 0) + mintedQ ts

/-- Total (normalized) amount burned: transfers whose receiver is the
zero address. -/
def burnedQ : List Transfer → ℚ
  | [] => 0
  | t :: ts => (if t.toAddr = zeroAddr then normalizeToEther t.value else 0) + burnedQ ts

/-- Total deficit clamped away by the floor-at-zero rule on debits. -/
def clampedQ (bal : Addr → ℚ) : List Transfer → ℚ
  | [] => 0
  | t :: ts =>
    (if t.fromAddr = zeroAddr then 0
     else qMax 0 (normalizeToEther t.value - bal t.fromAddr)) + clampedQ (applyTransfer bal t) ts

theorem normalizeToEther_nonneg (v : ℚ) (h : 0 ≤ v) : 0 ≤ normalizeToEther v := by
  rw [normalizeToEther]
  split
  · positivity
  · exact h

theorem applyTransfer_nonneg (bal : Addr → ℚ) (t : Transfer) (hb : ∀ a, 0 ≤ bal a)
    (hv : 0 ≤ t.value) : ∀ a, 0 ≤ applyTransfer bal t a := by
  intro a
  have hamt : 0 ≤ normalizeToEther t.value := normalizeToEther_nonneg _ hv
  have hb1 : ∀ x, 0 ≤ (if t.fromAddr = zeroAddr then bal
      else updateF bal t.fromAddr (qMax 0 (bal t.fromAddr - normalizeToEther t.value))) x := by
    intro x
    split
    · exact hb x
    · rw [updateF]
      split
      · exact qMax_nonneg_left _
      · exact hb x
  simp only [applyTransfer]
  split
  · exact hb1 a
  · rw [updateF]
    split
    · have := hb1 t.toAddr
      linarith
    · exact hb1 a

theorem replay_nonneg : ∀ (ts : List Transfer) (bal : Addr → ℚ),
    (∀ a, 0 ≤ bal a) → (∀ t ∈ ts, 0 ≤ t.value) → ∀ a, 0 ≤ replay bal ts a := by
  intro ts
  induction ts with
  | nil => intro bal hb _ a; exact hb a
  | cons t ts ih =>
    intro bal hb hv a
    rw [replay, List.foldl_cons]
    exact ih (applyTransfer bal t)
      (applyTransfer_nonneg bal t hb (hv t (List.mem_cons_self t ts)))
      (fun x hx => hv x (List.mem_cons_of_mem t hx)) a

theorem sumOver_updateF (f : Addr → ℚ) (k : Addr) (v : ℚ) :
    ∀ (univ : List Addr), univ.Nodup → k ∈ univ →
      sumOver univ (updateF f k v) = sumOver univ f + (v - f k) := by
  intro univ
  induction univ with
  | nil => intro _ hk; cases hk
  | cons a u ih =>
    intro hu hk
    rw [List.nodup_cons] at hu
    rcases List.mem_cons.mp hk with hak | hmem
    · subst hak
      have hpt : ∀ x ∈ u, updateF f k v x = f x := by
        intro x hx
        rw [updateF, if_neg]
        intro hc
        exact hu.1 (hc ▸ hx)
      rw [sumOver, sumOver, List.map_cons, List.map_cons, List.sum_cons, List.sum_cons,
        List.map_congr_left hpt]
      rw [updateF, if_pos rfl]
      ring
    · have hak : a ≠ k := by
        intro hc
        exact hu.1 (hc ▸ hmem)
      rw [sumOver, sumOver, List.map_cons, List.map_cons, List.sum_cons, List.sum_cons]
      have := ih hu.2 hmem
      rw [sumOver, sumOver] at this
      rw [this, updateF, if_neg hak]
      ring

theorem qMax_debit (b amt : ℚ) : qMax 0 (b - amt) - b = -amt + qMax 0 (amt - b) := by
  rw [qMax_eq_max, qMax_eq_max]
  rcases le_total b amt with h | h
  · rw [max_eq_left (by linarith), max_eq_right (by linarith)]
    ring
  · rw [max_eq_right (by linarith), max_eq_left (by linarith)]
    ring

theorem sumOver_applyTransfer (univ : List Addr) (hu : univ.Nodup) (bal : Addr → ℚ)
    (t : Transfer) (hf : t.fromAddr ∈ univ) (ht : t.toAddr ∈ univ) :
    sumOver univ (applyTransfer bal t)
      = sumOver univ bal
        + (if t.fromAddr = zeroAddr then normalizeToEther t.value else 0)
        - (if t.toAddr = zeroAddr then normalizeToEther t.value else 0)
        + (if t.fromAddr = zeroAddr then 0
           else qMax 0 (normalizeToEther t.value - bal t.fromAddr)) := by
  by_cases hfz : t.fromAddr = zeroAddr <;> by_cases htz : t.toAddr = zeroAddr
  · simp only [applyTransfer, if_pos hfz, if_pos htz]
    ring
  · simp only [applyTransfer, if_pos hfz, if_neg htz]
    rw [sumOver_updateF bal t.toAddr _ univ hu ht]
    ring
  · simp only [applyTransfer, if_neg hfz, if_pos htz]
    rw [sumOver_updateF bal t.fromAddr _ univ hu hf]
    have := qMax_debit (bal t.fromAddr) (normalizeToEther t.value)
    linarith
  · simp only [applyTransfer, if_neg hfz, if_neg htz]
    rw [sumOver_updateF _ t.toAddr _ univ hu ht,
      sumOver_updateF bal t.fromAddr _ univ hu hf]
    have := qMax_debit (bal t.fromAddr) (normalizeToEther t.value)
    linarith

theorem sumOver_replay (univ : List Addr) (hu : univ.Nodup) :
    ∀ (ts : List Transfer) (bal : Addr → ℚ),
      (∀ t ∈ ts, t.fromAddr ∈ univ ∧ t.toAddr ∈ univ) →
      sumOver univ (replay bal ts)
        = sumOver univ bal + mintedQ ts - burnedQ ts + clampedQ bal ts := by
  intro ts
  induction ts with
  | nil => intro bal _; simp [replay, mintedQ, burnedQ, clampedQ]
  | cons t ts ih =>
    intro bal h
    have hstep : replay bal (t :: ts) = replay (applyTransfer bal t) ts := by
      rw [replay, replay, List.foldl_cons]
    rw [hstep, ih (applyTransfer bal t) (fun x hx => h x (List.mem_cons_of_mem t hx)),
      sumOver_applyTransfer univ hu bal t (h t (List.mem_cons_self t ts)).1
        (h t (List.mem_cons_self t ts)).2,
      mintedQ, burnedQ, clampedQ]
    ring

/-- Claim C4: replaying the transfer events of a token (with
non-negative raw amounts, over any finite address universe containing
all senders and receivers) keeps every intermediate and final balance
non-negative, and the final balances sum to total minted minus total
burned plus the total deficit clamped away by the floor-at-zero rule. -/
theorem claim_C4_conservation (ts : List Transfer) (univ : List Addr)
    (hval : ∀ t ∈ ts, 0 ≤ t.value) (hu : univ.Nodup)
    (hmem : ∀ t ∈ ts, t.fromAddr ∈ univ ∧ t.toAddr ∈ univ) :
    (∀ (n : Nat) (a : Addr), 0 ≤ replay zeroBal (ts.take n) a)
    ∧ sumOver univ (replay zeroBal ts) = mintedQ ts - burnedQ ts + clampedQ zeroBal ts := by
  constructor
  · intro n a
    exact replay_nonneg (ts.take n) zeroBal (fun _ => le_refl 0)
      (fun t htk => hval t (List.take_subset n ts htk)) a
  · rw [sumOver_replay univ hu ts zeroBal hmem]
    have hz : sumOver univ zeroBal = 0 := by
      apply List.sum_eq_zero
      intro x hx
      obtain ⟨a, _, hxa⟩ := List.mem_map.mp hx
      exact hxa.symm
    rw [hz]
    ring

def c4Transfers : List Transfer :=
  [⟨1, zeroAddr, "0xx", 100, "0xa"⟩, ⟨2, "0xx", "0xy", 40, "0xa"⟩]

def c4Univ : List Addr := [zeroAddr, "0xx", "0xy"]

unseal Rat.mul Rat.inv Rat.add Rat.sub in
/-- Witness for claim C4 on the spec's own example: mint 100 to X at
block 1, then X sends 40 to Y at block 2. -/
theorem claim_C4_witness :
    (0 ≤ replay zeroBal (c4Transfers.take 2) "0xx")
    ∧ sumOver c4Univ (replay zeroBal c4Transfers)
        = mintedQ c4Transfers - burnedQ c4Transfers + clampedQ zeroBal c4Transfers :=
  ⟨(claim_C4_conservation c4Transfers c4Univ (by decide) (by decide) (by decide)).1 2 "0xx",
   (claim_C4_conservation c4Transfers c4Univ (by decide) (by decide) (by decide)).2⟩

/-! ### Order-independence of the replay per address (C7) -/

/-- Whether a transfer touches the address (as sender or receiver). -/
def touches (a : Addr) (t : Transfer) : Bool := a == t.fromAddr || a == t.toAddr

/-- The effect of one transfer on the balance of a single address. -/
def stepFor (a : Addr) (b : ℚ) (t : Transfer) : ℚ :=
  let amount := normalizeToEther t.value
  let b1 := if a = t.fromAddr ∧ ¬ t.fromAddr = zeroAddr then qMax 0 (b - amount) else b
  if a = t.toAddr ∧ ¬ t.toAddr = zeroAddr then b1 + amount else b1

theorem applyTransfer_pointwise (bal : Addr → ℚ) (t : Transfer) (a : Addr) :
    applyTransfer bal t a = stepFor a (bal a) t := by
  simp only [applyTransfer, stepFor]
  split_ifs <;> simp_all [updateF]

theorem stepFor_not_touches (a : Addr) (t : Transfer) (b : ℚ)
    (h : touches a t = false) : stepFor a b t = b := by
  rw [touches, Bool.or_eq_false_iff, beq_eq_false_iff_ne, beq_eq_false_iff_ne] at h
  have h1 : ¬ (a = t.fromAddr ∧ ¬ t.fromAddr = zeroAddr) := fun hc => h.1 hc.1
  have h2 : ¬ (a = t.toAddr ∧ ¬ t.toAddr = zeroAddr) := fun hc => h.2 hc.1
  simp only [stepFor, if_neg h1, if_neg h2]

theorem stepFor_zeroAddr (t : Transfer) (b : ℚ) : stepFor zeroAddr b t = b := by
  have h1 : ¬ (zeroAddr = t.fromAddr ∧ ¬ t.fromAddr = zeroAddr) := fun hc => hc.2 hc.1.symm
  have h2 : ¬ (zeroAddr = t.toAddr ∧ ¬ t.toAddr = zeroAddr) := fun hc => hc.2 hc.1.symm
  simp only [stepFor, if_neg h1, if_neg h2]

theorem replay_pointwise : ∀ (ts : List Transfer) (bal : Addr → ℚ) (a : Addr),
    replay bal ts a = ts.foldl (stepFor a) (bal a) := by
  intro ts
  induction ts with
  | nil => intro bal a; rfl
  | cons t ts ih =>
    intro bal a
    have hstep : replay bal (t :: ts) = replay (applyTransfer bal t) ts := by
      rw [replay, replay, List.foldl_cons]
    rw [hstep, ih (applyTransfer bal t) a, applyTransfer_pointwise, List.foldl_cons]

/-- Claim C7: replaying two transfer sequences that agree, for every
(non-sentinel) address, on the subsequence of transfers touching that
address yields identical final balances at every address (the zero
address is the mint/burn sentinel and never accrues balance). -/
theorem claim_C7_order_independence (ts₁ ts₂ : List Transfer)
    (h : ∀ a : Addr, ¬ a = zeroAddr →
      ts₁.filter (touches a) = ts₂.filter (touches a)) :
    ∀ a : Addr, replay zeroBal ts₁ a = replay zeroBal ts₂ a := by
  intro a
  by_cases ha : a = zeroAddr
  · subst ha
    have hconst : ∀ (l : List Transfer) (b : ℚ), l.foldl (stepFor zeroAddr) b = b := by
      intro l
      induction l with
      | nil => intro b; rfl
      | cons t ts ih => intro b; rw [List.foldl_cons, stepFor_zeroAddr]; exact ih b
    rw [replay_pointwise, replay_pointwise, hconst, hconst]
  · rw [replay_pointwise, replay_pointwise,
      foldl_filter_id (stepFor a) (touches a) ts₁ (zeroBal a)
        (fun t _ hpt c => stepFor_not_touches a t c hpt),
      foldl_filter_id (stepFor a) (touches a) ts₂ (zeroBal a)
        (fun t _ hpt c => stepFor_not_touches a t c hpt),
      h a ha]

def c7aTransfers : List Transfer :=
  [⟨1, zeroAddr, "0xx", 100, "0xa"⟩, ⟨1, zeroAddr, "0xy", 50, "0xa"⟩]

def c7bTransfers : List Transfer :=
  [⟨1, zeroAddr, "0xy", 50, "0xa"⟩, ⟨1, zeroAddr, "0xx", 100, "0xa"⟩]

unseal Rat.mul Rat.inv Rat.add Rat.sub in
/-- Witness for claim C7: two same-block mints to different holders
replayed in either order give the same final balance for each holder. -/
theorem claim_C7_witness :
    replay zeroBal c7aTransfers "0xx" = replay zeroBal c7bTransfers "0xx"
    ∧ replay zeroBal c7aTransfers "0xy" = replay zeroBal c7bTransfers "0xy" := by
  have hfilter : ∀ a : Addr, ¬ a = zeroAddr →
      c7aTransfers.filter (touches a) = c7bTransfers.filter (touches a) := by
    intro a ha
    have h0 : (a == zeroAddr) = false := beq_eq_false_iff_ne.mpr ha
    by_cases hx : a = "0xx" <;> by_cases hy : a = "0xy"
    · exact absurd (hx ▸ hy) (by subst hx; decide)
    · subst hx; decide
    · subst hy; decide
    · have hbx : (a == "0xx") = false := beq_eq_false_iff_ne.mpr hx
      have hby : (a == "0xy") = false := beq_eq_false_iff_ne.mpr hy
      simp [c7aTransfers, c7bTransfers, List.filter, touches, h0, hbx, hby]
  exact ⟨claim_C7_order_independence c7aTransfers c7bTransfers hfilter "0xx",
    claim_C7_order_independence c7aTransfers c7bTransfers hfilter "0xy"⟩

/-! ### LP-address exclusion and positivity of the snapshot (C6) -/

theorem mem_foldl_mDel {α : Type} : ∀ (ks : List Addr) (m : List (Addr × α)) (p : Addr × α),
    p ∈ ks.foldl mDel m → p ∈ m ∧ p.1 ∉ ks := by
  intro ks
  induction ks with
  | nil => intro m p h; exact ⟨h, by simp⟩
  | cons k t ih =>
    intro m p h
    rw [List.foldl_cons] at h
    obtain ⟨hm, hnt⟩ := ih (mDel m k) p h
    rw [mDel, List.mem_filter] at hm
    have hk : ¬ p.1 = k := by
      have := hm.2
      rw [Bool.not_eq_eq_eq_not, Bool.not_true, beq_eq_false_iff_ne] at this
      exact this
    refine ⟨hm.1, ?_⟩
    intro hc
    rcases List.mem_cons.mp hc with h1 | h1
    · exact hk h1
    · exact hnt h1

def c6Tokens : List Token := [⟨"0xt", "0xAB"⟩]

def c6Transfers : List Transfer := [⟨1, zeroAddr, "0xAB", 5, "0xt"⟩]

unseal Rat.mul Rat.inv Rat.add Rat.sub in
/-- Claim C6 counterexample: the LP-address exclusion deletes only the
exact lowercased key, so a holder key that equals the configured LP
address up to case (here `"0xAB"` itself, the verbatim pool address)
survives in the snapshot even though it equals the LP address under
case-insensitive comparison. -/
theorem claim_C6_counterexample :
    snapshotHolders c6Transfers c6Tokens false [] = [⟨"0xAB", [⟨"0xt", 5, 0⟩]⟩]
    ∧ lowerStr "0xAB" = lowerStr (⟨"0xt", "0xAB"⟩ : Token).lpAddress
    ∧ ("0xAB" : String) ≠ lowerStr (⟨"0xt", "0xAB"⟩ : Token).lpAddress := by
  refine ⟨by decide, by decide, by decide⟩

/-- Claim C6 (amended): no holder whose recorded address is exactly the
lowercased form of a configured liquidity-pool address appears in the
snapshot (case-variant keys are not removed), and every returned
holder has at least one entry with a positive balance or a positive
lpBalance. -/
theorem claim_C6_amended (transfers : List Transfer) (tokens : List Token)
    (includeLPs : Bool) (lpBalances : List Balance) :
    (∀ b ∈ snapshotHolders transfers tokens includeLPs lpBalances,
       ∀ tok ∈ tokens, ¬ b.holderAddress = lowerStr tok.lpAddress)
    ∧ (∀ b ∈ snapshotHolders transfers tokens includeLPs lpBalances,
        ¬ b.balances = [] ∧ ∀ e ∈ b.balances, 0 < e.balance ∨ 0 < e.lpBalance) := by
  have main : ∀ b ∈ snapshotHolders transfers tokens includeLPs lpBalances,
      (∀ tok ∈ tokens, ¬ b.holderAddress = lowerStr tok.lpAddress)
      ∧ ¬ b.balances = [] ∧ ∀ e ∈ b.balances, 0 < e.balance ∨ 0 < e.lpBalance := by
    intro b hb
    rw [snapshotHolders] at hb
    rw [holderMapToBalances, List.mem_filter] at hb
    obtain ⟨p, hp, hpe⟩ := List.mem_map.mp hb.1
    obtain ⟨hpm2, hnotin⟩ := mem_foldl_mDel (tokens.map (fun t => lowerStr t.lpAddress)) _ p hp
    refine ⟨?_, ?_, ?_⟩
    · intro tok htok hc
      apply hnotin
      apply List.mem_map.mpr
      refine ⟨tok, htok, ?_⟩
      rw [← hc, ← hpe]
    · have := hb.2
      rw [← hpe] at this ⊢
      simpa using this
    · intro e he
      rw [← hpe] at he
      simp only [List.mem_filter] at he
      have := he.2
      simpa using this
  exact ⟨fun b hb => (main b hb).1, fun b hb => (main b hb).2⟩

unseal Rat.mul Rat.inv Rat.add Rat.sub in
/-- Witness for the amended claim C6 at a concrete snapshot with a
holder whose key differs from the lowercased LP address. -/
theorem claim_C6_witness :
    (¬ (⟨"0xa", [⟨"0xt", 5, 0⟩]⟩ : Balance).holderAddress
        = lowerStr (⟨"0xt", "0xL"⟩ : Token).lpAddress)
    ∧ ¬ (⟨"0xa", [⟨"0xt", 5, 0⟩]⟩ : Balance).balances = [] :=
  ⟨(claim_C6_amended [⟨1, zeroAddr, "0xa", 5, "0xt"⟩] [⟨"0xt", "0xL"⟩] false []).1
      ⟨"0xa", [⟨"0xt", 5, 0⟩]⟩ (by decide) ⟨"0xt", "0xL"⟩ (by decide),
   ((claim_C6_amended [⟨1, zeroAddr, "0xa", 5, "0xt"⟩] [⟨"0xt", "0xL"⟩] false []).2
      ⟨"0xa", [⟨"0xt", 5, 0⟩]⟩ (by decide)).1⟩

/-! ### Pagination of `getAllTransfers` (C8) -/

/-- One provider response: a page of transfers and an optional
continuation key (`pageKey`). -/
structure Page where
  transfers : List Transfer
  pageKey : Option Nat
deriving DecidableEq

/-- `Math.min(...page.map(t => Number(t.blockNum)))` on a non-empty page. -/
def minBlock : List Transfer → Nat
  | [] => 0
  | t :: ts => ts.foldl (fun m u => min m u.blockNum) t.blockNum

/-- The fetch loop of `getAllTransfers`: consume provider responses in
order; stop on an empty page, append the page, and continue only when
a continuation key is present and the page's lowest block number is at
most the target.  The boolean records whether the loop would request a
page beyond the modelled responses. -/
def fetchGo (blockNumber : Nat) (acc : List Transfer) : List Page → List Transfer × Bool
  | [] => (acc, true)
  | p :: rest =>
    if p.transfers.isEmpty then (acc, false)
    else if minBlock p.transfers ≤ blockNumber ∧ p.pageKey.isSome = true then
      fetchGo blockNumber (acc ++ p.transfers) rest
    else (acc ++ p.transfers, false)

/-- `getAllTransfers` from `api.ts` as a pure function of the provider
responses: run the fetch loop, then keep only transfers whose block
number is at most the target block. -/
def getAllTransfers (blockNumber : Nat) (pages : List Page) : List Transfer :=
  (fetchGo blockNumber [] pages).1.filter (fun t => t.blockNum ≤ blockNumber)

/-- The cursor-continuation condition of the spec: non-empty page,
continuation key present, lowest block number still at most the target. -/
def continuesPage (blockNumber : Nat) (p : Page) : Prop :=
  ¬ p.transfers = [] ∧ p.pageKey.isSome = true ∧ minBlock p.transfers ≤ blockNumber

instance (blockNumber : Nat) (p : Page) : Decidable (continuesPage blockNumber p) := by
  rw [continuesPage]
  infer_instance

/-- Claim C8: the fetch requests a further page exactly when the
current page is non-empty, a continuation key was returned, and the
lowest block number in the page is at most the target (when the
condition fails, the result does not depend on any later response);
and every transfer in the returned result has block number at most the
target block. -/
theorem claim_C8_pagination (blockNumber : Nat) :
    (∀ (p : Page) (rest : List Page) (acc : List Transfer),
      continuesPage blockNumber p →
        fetchGo blockNumber acc (p :: rest)
          = fetchGo blockNumber (acc ++ p.transfers) rest)
    ∧ (∀ (p : Page) (rest rest' : List Page) (acc : List Transfer),
        ¬ continuesPage blockNumber p →
          fetchGo blockNumber acc (p :: rest) = fetchGo blockNumber acc (p :: rest'))
    ∧ (∀ (pages : List Page) (t : Transfer),
        t ∈ getAllTransfers blockNumber pages → t.blockNum ≤ blockNumber) := by
  refine ⟨?_, ?_, ?_⟩
  · intro p rest acc hc
    obtain ⟨hne, hkey, hmin⟩ := hc
    rw [fetchGo, if_neg (by simpa using hne), if_pos ⟨hmin, hkey⟩]
  · intro p rest rest' acc hc
    by_cases hne : p.transfers.isEmpty
    · rw [fetchGo, if_pos hne, fetchGo, if_pos hne]
    · have hcond : ¬ (minBlock p.transfers ≤ blockNumber ∧ p.pageKey.isSome = true) := by
        intro hcc
        exact hc ⟨by simpa using hne, hcc.2, hcc.1⟩
      rw [fetchGo, if_neg hne, if_neg hcond, fetchGo, if_neg hne, if_neg hcond]
  · intro pages t ht
    rw [getAllTransfers, List.mem_filter] at ht
    simpa using ht.2

/-- Witness for claim C8: a concrete two-page response stream where
the first page continues and the second stops, and the block filter
holds on the result. -/
theorem claim_C8_witness :
    fetchGo 10 [] [⟨[⟨5, "0xa", "0xb", 1, "0xt"⟩], some 1⟩, ⟨[⟨20, "0xa", "0xb", 1, "0xt"⟩], none⟩]
        = fetchGo 10 [⟨5, "0xa", "0xb", 1, "0xt"⟩] [⟨[⟨20, "0xa", "0xb", 1, "0xt"⟩], none⟩]
    ∧ fetchGo 10 [] [⟨[⟨20, "0xa", "0xb", 1, "0xt"⟩], none⟩, ⟨[], none⟩]
        = fetchGo 10 [] [⟨[⟨20, "0xa", "0xb", 1, "0xt"⟩], none⟩]
    ∧ (⟨5, "0xa", "0xb", 1, "0xt"⟩ : Transfer).blockNum ≤ 10 :=
  ⟨(claim_C8_pagination 10).1 ⟨[⟨5, "0xa", "0xb", 1, "0xt"⟩], some 1⟩
      [⟨[⟨20, "0xa", "0xb", 1, "0xt"⟩], none⟩] [] (by decide),
   (claim_C8_pagination 10).2.1 ⟨[⟨20, "0xa", "0xb", 1, "0xt"⟩], none⟩
      [⟨[], none⟩] [] [] (by decide),
   (claim_C8_pagination 10).2.2
      [⟨[⟨5, "0xa", "0xb", 1, "0xt"⟩], some 1⟩, ⟨[⟨20, "0xa", "0xb", 1, "0xt"⟩], none⟩]
      ⟨5, "0xa", "0xb", 1, "0xt"⟩ (by decide)⟩

/-! ### LP position valuation (`getAllLPBalances`, C10) -/

/-- The slot0 data cached per pool (`{sqrtPriceX96, tick}`). -/
structure Slot0Data where
  sqrtPriceX96 : Nat
  tick : Int
deriving DecidableEq

/-- One `positions(tokenId)` multicall result joined with its holder
(the fields actually read by `getAllLPBalances`; `success` is the
multicall status). -/
structure PosRes where
  success : Bool
  token0 : Addr
  token1 : Addr
  fee : Nat
  tickLower : Int
  tickUpper : Int
  liquidity : Nat
  holderAddress : Addr
deriving DecidableEq

/-- The body of the position loop of `getAllLPBalances`.  The Uniswap
pool/position math is the external collaborator; `val0`/`val1` are its
token0/token1 amount valuations given the position and pool slot0. -/
def processPosition (tokens : List Token) (slot0Cache : List (Addr × Slot0Data))
    (val0 val1 : PosRes → Slot0Data → ℚ) (balances : HolderMap) (r : PosRes) : HolderMap :=
  if r.success = false then balances
  else if r.liquidity = 0 then balances
  else
    match tokens.find? (fun t =>
        lowerStr t.address == lowerStr r.token0 || lowerStr t.address == lowerStr r.token1) with
    | none => balances
    | some matchingToken =>
      match mGet slot0Cache matchingToken.lpAddress with
      | none => balances
      | some slot0 =>
        let holderBalances := (mGet balances r.holderAddress).getD []
        if lowerStr matchingToken.address == lowerStr r.token0 then
          let amount := normalizeToEther (val0 r slot0)
          let existing :=
            ((mGet holderBalances matchingToken.address).map (fun a => a.lpBalance)).getD 0
          mSet balances r.holderAddress
            (mSet holderBalances matchingToken.address ⟨0, existing + amount⟩)
        else
          let amount := normalizeToEther (val1 r slot0)
          let existing :=
            ((mGet holderBalances matchingToken.address).map (fun a => a.lpBalance)).getD 0
          mSet balances r.holderAddress
            (mSet holderBalances matchingToken.address ⟨0, existing + amount⟩)

/-- Output conversion of `getAllLPBalances`: keep entries with a
positive lpBalance and holders with at least one entry. -/
def lpMapToBalances (m : HolderMap) : List Balance :=
  (m.map (fun p =>
    ({ holderAddress := p.1
       balances := (p.2.map (fun q =>
         ({ tokenAddress := q.1, balance := q.2.balance, lpBalance := q.2.lpBalance } : TokenBal)))
         |>.filter (fun b => 0 < b.lpBalance) } : Balance)))
    |>.filter (fun h => ¬ h.balances = [])

/-- `getAllLPBalances` from `api.ts` as a pure function of the
configured tokens, the slot0 cache, the valuation oracles and the
position results. -/
def getAllLPBalances (tokens : List Token) (slot0Cache : List (Addr × Slot0Data))
    (val0 val1 : PosRes → Slot0Data → ℚ) (positionResults : List PosRes) : List Balance :=
  lpMapToBalances (positionResults.foldl (processPosition tokens slot0Cache val0 val1) [])

/-- A position result contributes only when the call succeeded, the
liquidity is non-zero, some configured token matches the pair, and the
matched token's pool has cached slot0 data. -/
def validPosition (tokens : List Token) (slot0Cache : List (Addr × Slot0Data))
    (r : PosRes) : Bool :=
  r.success && ! (r.liquidity == 0) &&
    (match tokens.find? (fun t =>
        lowerStr t.address == lowerStr r.token0 || lowerStr t.address == lowerStr r.token1) with
     | none => false
     | some matchingToken => (mGet slot0Cache matchingToken.lpAddress).isSome)

/-- Every `balance` field stored in the LP state is zero. -/
def lpStateZero (m : HolderMap) : Prop :=
  ∀ p ∈ m, ∀ q ∈ p.2, q.2.balance = 0

theorem mem_mSet {α : Type} (m : List (Addr × α)) (k : Addr) (v : α) :
    ∀ q ∈ mSet m k v, q = (k, v) ∨ q ∈ m := by
  intro q hq
  rw [mSet] at hq
  by_cases hany : m.any (fun p => p.1 == k) = true
  · rw [if_pos hany] at hq
    obtain ⟨p, hp, hpe⟩ := List.mem_map.mp hq
    by_cases hpk : (p.1 == k) = true
    · rw [if_pos hpk] at hpe
      exact Or.inl hpe.symm
    · rw [if_neg hpk] at hpe
      exact Or.inr (hpe ▸ hp)
  · rw [if_neg hany] at hq
    rcases List.mem_append.mp hq with h | h
    · exact Or.inr h
    · exact Or.inl (List.mem_singleton.mp h)

theorem mGet_mem {α : Type} : ∀ (m : List (Addr × α)) (k : Addr) (v : α),
    mGet m k = some v → (k, v) ∈ m := by
  intro m
  induction m with
  | nil => intro k v h; cases h
  | cons p t ih =>
    intro k v h
    rw [mGet] at h
    by_cases hpk : (p.1 == k) = true
    · rw [if_pos hpk] at h
      have hk : p.1 = k := beq_iff_eq.mp hpk
      have hv : p.2 = v := by injection h
      have hpe : p = (k, v) := by
        cases p
        simp_all
      exact hpe ▸ List.mem_cons_self p t
    · rw [if_neg hpk] at h
      exact List.mem_cons_of_mem p (ih k v h)

theorem lpStateZero_setEntry (m : HolderMap) (hm : lpStateZero m)
    (holderAddr tokAddr : Addr) (lp : ℚ) :
    lpStateZero (mSet m holderAddr
      (mSet ((mGet m holderAddr).getD []) tokAddr ⟨0, lp⟩)) := by
  intro p hp q hq
  have hbase : ∀ q' ∈ (mGet m holderAddr).getD [], q'.2.balance = 0 := by
    cases hg : mGet m holderAddr with
    | none => intro q' hq'; simp at hq'
    | some s =>
      intro q' hq'
      simp only [Option.getD_some] at hq'
      exact hm (holderAddr, s) (mGet_mem m holderAddr s hg) q' hq'
  rcases mem_mSet m holderAddr _ p hp with hpe | hpm
  · subst hpe
    rcases mem_mSet _ tokAddr _ q hq with hqe | hqm
    · subst hqe; rfl
    · exact hbase q hqm
  · exact hm p hpm q hq

theorem lpStateZero_processPosition (tokens : List Token)
    (slot0Cache : List (Addr × Slot0Data)) (val0 val1 : PosRes → Slot0Data → ℚ)
    (m : HolderMap) (r : PosRes) (hm : lpStateZero m) :
    lpStateZero (processPosition tokens slot0Cache val0 val1 m r) := by
  simp only [processPosition]
  repeat' split
  all_goals
    first
      | exact hm
      | exact lpStateZero_setEntry m hm _ _ _

theorem lpStateZero_foldl (tokens : List Token) (slot0Cache : List (Addr × Slot0Data))
    (val0 val1 : PosRes → Slot0Data → ℚ) :
    ∀ (rs : List PosRes) (m : HolderMap), lpStateZero m →
      lpStateZero (rs.foldl (processPosition tokens slot0Cache val0 val1) m) := by
  intro rs
  induction rs with
  | nil => intro m hm; exact hm
  | cons r rs ih =>
    intro m hm
    rw [List.foldl_cons]
    exact ih _ (lpStateZero_processPosition tokens slot0Cache val0 val1 m r hm)

theorem processPosition_invalid (tokens : List Token) (slot0Cache : List (Addr × Slot0Data))
    (val0 val1 : PosRes → Slot0Data → ℚ) (r : PosRes)
    (h : validPosition tokens slot0Cache r = false) (m : HolderMap) :
    processPosition tokens slot0Cache val0 val1 m r = m := by
  rw [validPosition] at h
  rw [processPosition]
  by_cases hs : r.success = false
  · rw [if_pos hs]
  · rw [if_neg hs]
    have hs' : r.success = true := by
      cases hsv : r.success
      · exact absurd hsv hs
      · rfl
    by_cases hl : r.liquidity = 0
    · rw [if_pos hl]
    · rw [if_neg hl]
      have hl' : (r.liquidity == 0) = false := by
        rw [beq_eq_false_iff_ne]
        exact hl
      rw [hs', hl'] at h
      simp only [Bool.true_and, Bool.not_false, Bool.true_and] at h
      cases hf : tokens.find? (fun t =>
          lowerStr t.address == lowerStr r.token0 || lowerStr t.address == lowerStr r.token1) with
      | none => rfl
      | some matchingToken =>
        rw [hf] at h
        dsimp only at h ⊢
        cases hg : mGet slot0Cache matchingToken.lpAddress with
        | none => rfl
        | some slot0 =>
          rw [hg] at h
          simp at h

/-- Claim C10: every record returned by `getAllLPBalances` has a
non-empty balances list whose entries all have a zero fungible balance
field and a positive lpBalance; and the result is unchanged when the
position results are restricted to the valid ones (successful call,
non-zero liquidity, matching configured token, cached pool price), so
the skipped positions contribute nothing. -/
theorem claim_C10_lp_balances (tokens : List Token) (slot0Cache : List (Addr × Slot0Data))
    (val0 val1 : PosRes → Slot0Data → ℚ) (positionResults : List PosRes) :
    (∀ b ∈ getAllLPBalances tokens slot0Cache val0 val1 positionResults,
      ¬ b.balances = [] ∧ ∀ e ∈ b.balances, e.balance = 0 ∧ 0 < e.lpBalance)
    ∧ getAllLPBalances tokens slot0Cache val0 val1 positionResults
        = getAllLPBalances tokens slot0Cache val0 val1
            (positionResults.filter (validPosition tokens slot0Cache)) := by
  constructor
  · intro b hb
    rw [getAllLPBalances] at hb
    have hzero : lpStateZero (positionResults.foldl
        (processPosition tokens slot0Cache val0 val1) []) :=
      lpStateZero_foldl tokens slot0Cache val0 val1 positionResults []
        (fun p hp => absurd hp (List.not_mem_nil p))
    rw [lpMapToBalances, List.mem_filter] at hb
    obtain ⟨p, hp, hpe⟩ := List.mem_map.mp hb.1
    constructor
    · have := hb.2
      rw [← hpe] at this ⊢
      simpa using this
    · intro e he
      rw [← hpe] at he
      rw [List.mem_filter] at he
      obtain ⟨q, hq, hqe⟩ := List.mem_map.mp he.1
      constructor
      · rw [← hqe]
        exact hzero p hp q hq
      · have := he.2
        simpa using this
  · rw [getAllLPBalances, getAllLPBalances,
      foldl_filter_id (processPosition tokens slot0Cache val0 val1)
        (validPosition tokens slot0Cache) positionResults []
        (fun r _ hr c => processPosition_invalid tokens slot0Cache val0 val1 r hr c)]

unseal Rat.mul Rat.inv Rat.add Rat.sub in
/-- Witness for claim C10 at a concrete position result set with one
valid and one zero-liquidity position. -/
theorem claim_C10_witness :
    (¬ (⟨"0xa", [⟨"0xt", 0, 5⟩]⟩ : Balance).balances = []
      ∧ (⟨"0xt", 0, 5⟩ : TokenBal).balance = 0 ∧ 0 < (⟨"0xt", 0, 5⟩ : TokenBal).lpBalance)
    ∧ getAllLPBalances [⟨"0xt", "0xl"⟩] [("0xl", ⟨1, 0⟩)] (fun _ _ => 5) (fun _ _ => 7)
          [⟨true, "0xt", "0xu", 3000, 0, 0, 9, "0xa"⟩, ⟨true, "0xt", "0xu", 3000, 0, 0, 0, "0xb"⟩]
        = getAllLPBalances [⟨"0xt", "0xl"⟩] [("0xl", ⟨1, 0⟩)] (fun _ _ => 5) (fun _ _ => 7)
            ([⟨true, "0xt", "0xu", 3000, 0, 0, 9, "0xa"⟩,
              ⟨true, "0xt", "0xu", 3000, 0, 0, 0, "0xb"⟩].filter
              (validPosition [⟨"0xt", "0xl"⟩] [("0xl", ⟨1, 0⟩)])) :=
  ⟨(fun hmain => ⟨hmain.1, hmain.2 ⟨"0xt", 0, 5⟩ (by decide)⟩)
      ((claim_C10_lp_balances [⟨"0xt", "0xl"⟩] [("0xl", ⟨1, 0⟩)] (fun _ _ => 5) (fun _ _ => 7)
        [⟨true, "0xt", "0xu", 3000, 0, 0, 9, "0xa"⟩,
         ⟨true, "0xt", "0xu", 3000, 0, 0, 0, "0xb"⟩]).1
      ⟨"0xa", [⟨"0xt", 0, 5⟩]⟩ (by decide)),
   (claim_C10_lp_balances [⟨"0xt", "0xl"⟩] [("0xl", ⟨1, 0⟩)] (fun _ _ => 5) (fun _ _ => 7)
      [⟨true, "0xt", "0xu", 3000, 0, 0, 9, "0xa"⟩, ⟨true, "0xt", "0xu", 3000, 0, 0, 0, "0xb"⟩]).2⟩

/-! ### LP position ownership replay (`getAllLPHolders`, C9) -/

/-- One position-manager `Transfer(from, to, tokenId)` event, with the
topic addresses already lowercased as in the source. -/
structure LPTransferEvent where
  fromAddr : Addr
  toAddr : Addr
  tokenId : Nat
deriving DecidableEq

/-- The ownership state: `Map<string, Set<bigint>>`. -/
abbrev OwnerMap := List (Addr × List Nat)

/-- An LP holder output record (`LPHolder` in `types.ts`). -/
structure LPHolder where
  address : Addr
  tokenIds : List Nat
deriving DecidableEq

/-- JavaScript `Set.prototype.add`: append when absent. -/
def setAdd (s : List Nat) (id : Nat) : List Nat :=
  if id ∈ s then s else s ++ [id]

/-- The sender half of the replay loop: if the sender owns a set,
erase the token-id from it, pruning the entry when it becomes empty. -/
def lpFromStep (holders : OwnerMap) (e : LPTransferEvent) : OwnerMap :=
  match mGet holders e.fromAddr with
  | some s =>
    let s2 := s.erase e.tokenId
    if s2 = [] then mDel holders e.fromAddr else mSet holders e.fromAddr s2
  | none => holders

/-- One ownership-transfer event applied to the holder map (the body
of the replay loop of `getAllLPHolders`): ignore untracked token-ids;
remove the id from the sender's set, pruning the entry when it becomes
empty; add the id to the receiver's set unless the receiver is the
zero address. -/
def applyLPTransfer (tokenIdSet : List Nat) (holders : OwnerMap)
    (e : LPTransferEvent) : OwnerMap :=
  if e.tokenId ∉ tokenIdSet then holders
  else
    let h1 := lpFromStep holders e
    if ¬ e.toAddr = zeroAddr then
      mSet h1 e.toAddr (setAdd ((mGet h1 e.toAddr).getD []) e.tokenId)
    else h1

/-- The configured auto-compounder address removed from final results. -/
def REVERT_AUTOCOMPOUNDER : Addr :=
  lowerStr "0x83681C14770b44361e21Faf91D8325423365eA5C"

/-- The ownership-replay core of `getAllLPHolders`, as a pure function
of the tracked token-id set and the position-transfer events: replay
every event, delete the auto-compounder, convert the map to records
and keep non-empty token-id lists. -/
def getAllLPHolders (tokenIdSet : List Nat) (events : List LPTransferEvent) : List LPHolder :=
  let holders := events.foldl (applyLPTransfer tokenIdSet) []
  let holders2 := mDel holders REVERT_AUTOCOMPOUNDER
  (holders2.map (fun p => ({ address := p.1, tokenIds := p.2 } : LPHolder))).filter
    (fun h => 0 < h.tokenIds.length)

/-- The claim's hypothesis on the event stream: at each step, whenever
an entry of the current holder map contains the event's token-id, the
event's from-address is that entry's owner (the from-address of a mint
is the zero address, which never owns). -/
def ownerConsistentB (tokenIdSet : List Nat) : OwnerMap → List LPTransferEvent → Bool
  | _, [] => true
  | holders, e :: es =>
    holders.all (fun p => ! p.2.contains e.tokenId || p.1 == e.fromAddr)
      && ownerConsistentB tokenIdSet (applyLPTransfer tokenIdSet holders e) es

/-! #### Map-operation characterizations -/

theorem mGet_mapReplace {α : Type} (k : Addr) (v : α) :
    ∀ (m : List (Addr × α)) (k' : Addr),
      mGet (m.map (fun p => if p.1 == k then (k, v) else p)) k'
        = if k' = k then (if (mGet m k).isSome then some v else none) else mGet m k' := by
  intro m
  induction m with
  | nil => intro k'; by_cases hk' : k' = k <;> simp [mGet, hk']
  | cons p t ih =>
    intro k'
    rw [List.map_cons]
    by_cases hpk : (p.1 == k) = true
    · rw [if_pos hpk]
      have hk : p.1 = k := beq_iff_eq.mp hpk
      by_cases hk' : k' = k
      · subst hk'
        rw [mGet, if_pos (by simp), mGet, if_pos hpk]
        simp
      · have c1 : ¬ (((k, v) : Addr × α).1 == k') = true := by
          simp only [beq_iff_eq]
          intro hc
          exact hk' hc.symm
        have c2 : ¬ (p.1 == k') = true := by
          simp only [beq_iff_eq]
          intro hc
          exact hk' (hc ▸ hk)
        rw [mGet, if_neg c1, ih k', if_neg hk', if_neg hk', mGet, if_neg c2]
    · rw [if_neg hpk]
      have hk : ¬ p.1 = k := fun hc => hpk (beq_iff_eq.mpr hc)
      by_cases hpk' : (p.1 == k') = true
      · have hne : ¬ k' = k := fun hc => hk (hc ▸ beq_iff_eq.mp hpk')
        rw [mGet, if_pos hpk', if_neg hne, mGet, if_pos hpk']
      · rw [mGet, if_neg hpk', ih k']
        by_cases hk' : k' = k
        · rw [if_pos hk', if_pos hk', mGet, if_neg hpk]
        · rw [if_neg hk', if_neg hk', mGet, if_neg hpk']


theorem mGet_append {α : Type} :
    ∀ (m l₂ : List (Addr × α)) (k : Addr), mGet (m ++ l₂) k = (mGet m k).or (mGet l₂ k) := by
  intro m
  induction m with
  | nil => intro l₂ k; rfl
  | cons p t ih =>
    intro l₂ k
    rw [List.cons_append, mGet, mGet]
    by_cases hpk : (p.1 == k) = true
    · rw [if_pos hpk, if_pos hpk]
      rfl
    · rw [if_neg hpk, if_neg hpk, ih]

theorem mGet_isSome_of_any {α : Type} :
    ∀ (m : List (Addr × α)) (k : Addr),
      m.any (fun p => p.1 == k) = true → (mGet m k).isSome = true := by
  intro m
  induction m with
  | nil => intro k h; cases h
  | cons p t ih =>
    intro k h
    rw [List.any_cons, Bool.or_eq_true] at h
    rw [mGet]
    by_cases hpk : (p.1 == k) = true
    · rw [if_pos hpk]
      rfl
    · rw [if_neg hpk]
      rcases h with h | h
      · exact absurd h hpk
      · exact ih k h

theorem mGet_none_of_not_any {α : Type} :
    ∀ (m : List (Addr × α)) (k : Addr),
      ¬ m.any (fun p => p.1 == k) = true → mGet m k = none := by
  intro m
  induction m with
  | nil => intro k _; rfl
  | cons p t ih =>
    intro k h
    rw [List.any_cons, Bool.or_eq_true] at h
    push_neg at h
    rw [mGet, if_neg h.1]
    exact ih k h.2

theorem mGet_mSet {α : Type} (m : List (Addr × α)) (k : Addr) (v : α) (k' : Addr) :
    mGet (mSet m k v) k' = if k' = k then some v else mGet m k' := by
  rw [mSet]
  by_cases hany : m.any (fun p => p.1 == k) = true
  · rw [if_pos hany, mGet_mapReplace, mGet_isSome_of_any m k hany]
    by_cases hk' : k' = k
    · rw [if_pos hk', if_pos hk']
      rfl
    · rw [if_neg hk', if_neg hk']
  · rw [if_neg hany, mGet_append]
    have hnone : mGet m k = none := mGet_none_of_not_any m k hany
    by_cases hk' : k' = k
    · subst hk'
      rw [hnone, if_pos rfl, mGet, if_pos (by simp)]
      rfl
    · rw [if_neg hk']
      have hsingle : mGet [(k, v)] k' = none := by
        rw [mGet, if_neg (by simpa using fun hc => hk' hc.symm)]
        rfl
      rw [hsingle, Option.or_none]

theorem mGet_mDel {α : Type} :
    ∀ (m : List (Addr × α)) (k k' : Addr),
      mGet (mDel m k) k' = if k' = k then none else mGet m k' := by
  intro m
  induction m with
  | nil => intro k k'; by_cases hk' : k' = k <;> simp [mDel, mGet, hk']
  | cons p t ih =>
    intro k k'
    rw [mDel, List.filter_cons]
    by_cases hpk : (p.1 == k) = true
    · rw [if_neg (by simp [hpk])]
      have hdel := ih k k'
      rw [mDel] at hdel
      rw [hdel]
      by_cases hk' : k' = k
      · rw [if_pos hk', if_pos hk']
      · have hhead : ¬ (p.1 == k') = true := by
          rw [beq_iff_eq]
          intro hc
          exact hk' (by rw [← hc, beq_iff_eq.mp hpk])
        rw [if_neg hk', if_neg hk', mGet, if_neg hhead]
    · rw [if_pos (by simp [hpk])]
      rw [mGet]
      by_cases hpk' : (p.1 == k') = true
      · have hne : ¬ k' = k := by
          intro hc
          exact hpk (by rw [beq_iff_eq, beq_iff_eq.mp hpk', hc])
        rw [if_pos hpk', if_neg hne, mGet, if_pos hpk']
      · rw [if_neg hpk']
        have hdel := ih k k'
        rw [mDel] at hdel
        rw [hdel]
        by_cases hk' : k' = k
        · rw [if_pos hk', if_pos hk']
        · rw [if_neg hk', if_neg hk', mGet, if_neg hpk']


/-! #### Key and entry lemmas for the ownership invariants -/

theorem keysNodup_mSet {α : Type} (m : List (Addr × α)) (k : Addr) (v : α)
    (h : (m.map (fun p => p.1)).Nodup) : ((mSet m k v).map (fun p => p.1)).Nodup := by
  rw [mSet]
  by_cases hany : m.any (fun p => p.1 == k) = true
  · rw [if_pos hany, List.map_map]
    have hpt : ∀ p ∈ m,
        (((fun p => p.1) ∘ (fun p => if p.1 == k then (k, v) else p)) p) = p.1 := by
      intro p _
      by_cases hpk : (p.1 == k) = true
      · simp only [Function.comp_apply]
        rw [if_pos hpk]
        exact (beq_iff_eq.mp hpk).symm
      · simp only [Function.comp_apply]
        rw [if_neg hpk]
    rw [List.map_congr_left hpt]
    exact h
  · rw [if_neg hany, List.map_append]
    have hknot : k ∉ m.map (fun p => p.1) := by
      intro hc
      obtain ⟨p, hp, hpe⟩ := List.mem_map.mp hc
      exact hany (List.any_eq_true.mpr ⟨p, hp, beq_iff_eq.mpr hpe⟩)
    simp [List.nodup_append, h, hknot]

theorem keysNodup_mDel {α : Type} (m : List (Addr × α)) (k : Addr)
    (h : (m.map (fun p => p.1)).Nodup) : ((mDel m k).map (fun p => p.1)).Nodup := by
  rw [mDel]
  exact (((List.filter_sublist m).map (fun p => p.1)).nodup h)

theorem mGet_of_mem_nodup {α : Type} :
    ∀ (m : List (Addr × α)), (m.map (fun p => p.1)).Nodup →
      ∀ p ∈ m, mGet m p.1 = some p.2 := by
  intro m
  induction m with
  | nil => intro _ p hp; cases hp
  | cons q t ih =>
    intro hn p hp
    rw [List.map_cons, List.nodup_cons] at hn
    rcases List.mem_cons.mp hp with hpq | hpm
    · subst hpq
      rw [mGet, if_pos (by simp)]
    · have hne : ¬ q.1 == p.1 := by
        rw [beq_iff_eq]
        intro hc
        exact hn.1 (hc ▸ List.mem_map.mpr ⟨p, hpm, rfl⟩)
      rw [mGet, if_neg hne]
      exact ih hn.2 p hpm

theorem mem_setAdd (s : List Nat) (a id : Nat) :
    a ∈ setAdd s id ↔ a = id ∨ a ∈ s := by
  rw [setAdd]
  by_cases h : id ∈ s
  · rw [if_pos h]
    constructor
    · exact Or.inr
    · rintro (rfl | hm)
      · exact h
      · exact hm
  · rw [if_neg h]
    simp [List.mem_append, or_comm]

theorem nodup_setAdd (s : List Nat) (id : Nat) (h : s.Nodup) : (setAdd s id).Nodup := by
  rw [setAdd]
  by_cases hm : id ∈ s
  · rw [if_pos hm]
    exact h
  · rw [if_neg hm]
    simp [List.nodup_append, h, hm]

/-! #### The from-step characterization -/

theorem mGet_lpFromStep (holders : OwnerMap) (e : LPTransferEvent) (a : Addr) :
    mGet (lpFromStep holders e) a
      = match mGet holders e.fromAddr with
        | none => mGet holders a
        | some s =>
          if a = e.fromAddr then
            (if s.erase e.tokenId = [] then none else some (s.erase e.tokenId))
          else mGet holders a := by
  rw [lpFromStep]
  cases hg : mGet holders e.fromAddr with
  | none => rfl
  | some s =>
    dsimp only
    by_cases hempty : s.erase e.tokenId = []
    · rw [if_pos hempty, mGet_mDel]
      by_cases ha : a = e.fromAddr
      · rw [if_pos ha, if_pos ha, if_pos hempty]
      · rw [if_neg ha, if_neg ha]
    · rw [if_neg hempty, mGet_mSet]
      by_cases ha : a = e.fromAddr
      · rw [if_pos ha, if_pos ha, if_neg hempty]
      · rw [if_neg ha, if_neg ha]


theorem mem_lpFromStep (holders : OwnerMap) (e : LPTransferEvent) :
    ∀ p ∈ lpFromStep holders e,
      p ∈ holders
      ∨ ∃ s, mGet holders e.fromAddr = some s ∧ p = (e.fromAddr, s.erase e.tokenId) := by
  intro p hp
  rw [lpFromStep] at hp
  cases hg : mGet holders e.fromAddr with
  | none => rw [hg] at hp; exact Or.inl hp
  | some s =>
    rw [hg] at hp
    dsimp only at hp
    by_cases hempty : s.erase e.tokenId = []
    · rw [if_pos hempty] at hp
      exact Or.inl (List.mem_filter.mp hp).1
    · rw [if_neg hempty] at hp
      rcases mem_mSet holders e.fromAddr _ p hp with hpe | hpm
      · refine Or.inr ⟨s, ?_, hpe⟩
        first
          | exact hg
          | rfl
      · exact Or.inl hpm

/-- The ownership invariant maintained by the replay: distinct keys,
duplicate-free token-id sets, and every token-id owned by at most one
holder. -/
def OwnerInv (holders : OwnerMap) : Prop :=
  (holders.map (fun p => p.1)).Nodup
  ∧ (∀ p ∈ holders, p.2.Nodup)
  ∧ ∀ a b sa sb id, mGet holders a = some sa → mGet holders b = some sb →
      id ∈ sa → id ∈ sb → a = b

theorem ownerInv_lpFromStep (holders : OwnerMap) (e : LPTransferEvent)
    (inv : OwnerInv holders)
    (hyp : ∀ p ∈ holders, e.tokenId ∈ p.2 → p.1 = e.fromAddr) :
    OwnerInv (lpFromStep holders e)
    ∧ (∀ a s', mGet (lpFromStep holders e) a = some s' → e.tokenId ∉ s')
    ∧ (∀ a s' id, mGet (lpFromStep holders e) a = some s' → id ∈ s' →
        ∃ s0, mGet holders a = some s0 ∧ id ∈ s0) := by
  obtain ⟨hkeys, hsets, huniq⟩ := inv
  have hypG : ∀ a s, mGet holders a = some s → e.tokenId ∈ s → a = e.fromAddr := by
    intro a s hg hm
    exact hyp (a, s) (mGet_mem holders a s hg) hm
  have hB : ∀ a s' id, mGet (lpFromStep holders e) a = some s' → id ∈ s' →
      ∃ s0, mGet holders a = some s0 ∧ id ∈ s0 := by
    intro a s' id hga hm
    rw [mGet_lpFromStep] at hga
    cases hg : mGet holders e.fromAddr with
    | none => rw [hg] at hga; exact ⟨s', hga, hm⟩
    | some s =>
      rw [hg] at hga
      dsimp only at hga
      by_cases ha : a = e.fromAddr
      · rw [if_pos ha] at hga
        by_cases hempty : s.erase e.tokenId = []
        · rw [if_pos hempty] at hga; cases hga
        · rw [if_neg hempty] at hga
          injection hga with hs'
          refine ⟨s, by rw [ha]; exact hg, ?_⟩
          exact List.mem_of_mem_erase (hs' ▸ hm)
      · rw [if_neg ha] at hga
        exact ⟨s', hga, hm⟩
  have hA : ∀ a s', mGet (lpFromStep holders e) a = some s' → e.tokenId ∉ s' := by
    intro a s' hga hm
    rw [mGet_lpFromStep] at hga
    cases hg : mGet holders e.fromAddr with
    | none =>
      rw [hg] at hga
      have ha := hypG a s' hga hm
      rw [ha, hg] at hga
      cases hga
    | some s =>
      rw [hg] at hga
      dsimp only at hga
      by_cases ha : a = e.fromAddr
      · rw [if_pos ha] at hga
        by_cases hempty : s.erase e.tokenId = []
        · rw [if_pos hempty] at hga; cases hga
        · rw [if_neg hempty] at hga
          injection hga with hs'
          have hsnodup : s.Nodup := hsets (e.fromAddr, s) (mGet_mem _ _ _ hg)
          rw [← hs'] at hm
          exact ((List.Nodup.mem_erase_iff hsnodup).mp hm).1 rfl
      · rw [if_neg ha] at hga
        exact ha (hypG a s' hga hm)
  have huniq1 : ∀ a b sa sb id, mGet (lpFromStep holders e) a = some sa →
      mGet (lpFromStep holders e) b = some sb → id ∈ sa → id ∈ sb → a = b := by
    intro a b sa sb id hga hgb hia hib
    obtain ⟨s0a, hg0a, hi0a⟩ := hB a sa id hga hia
    obtain ⟨s0b, hg0b, hi0b⟩ := hB b sb id hgb hib
    exact huniq a b s0a s0b id hg0a hg0b hi0a hi0b
  have hkeys1 : ((lpFromStep holders e).map (fun p => p.1)).Nodup := by
    rw [lpFromStep]
    cases hg : mGet holders e.fromAddr with
    | none => exact hkeys
    | some s =>
      dsimp only
      by_cases hempty : s.erase e.tokenId = []
      · rw [if_pos hempty]
        exact keysNodup_mDel holders e.fromAddr hkeys
      · rw [if_neg hempty]
        exact keysNodup_mSet holders e.fromAddr _ hkeys
  have hsets1 : ∀ p ∈ lpFromStep holders e, p.2.Nodup := by
    intro p hp
    rcases mem_lpFromStep holders e p hp with hpm | ⟨s, hg, hpe⟩
    · exact hsets p hpm
    · rw [hpe]
      exact (hsets (e.fromAddr, s) (mGet_mem _ _ _ hg)).erase e.tokenId
  exact ⟨⟨hkeys1, hsets1, huniq1⟩, hA, hB⟩

theorem ownerInv_applyLPTransfer (tokenIdSet : List Nat) (holders : OwnerMap)
    (e : LPTransferEvent) (inv : OwnerInv holders)
    (hyp : ∀ p ∈ holders, e.tokenId ∈ p.2 → p.1 = e.fromAddr) :
    OwnerInv (applyLPTransfer tokenIdSet holders e) := by
  simp only [applyLPTransfer]
  by_cases htrack : e.tokenId ∉ tokenIdSet
  · rw [if_pos htrack]
    exact inv
  · rw [if_neg htrack]
    obtain ⟨inv1, hA, hB⟩ := ownerInv_lpFromStep holders e inv hyp
    obtain ⟨hkeys1, hsets1, huniq1⟩ := inv1
    by_cases hto : ¬ e.toAddr = zeroAddr
    · rw [if_pos hto]
      refine ⟨keysNodup_mSet _ _ _ hkeys1, ?_, ?_⟩
      · intro p hp
        rcases mem_mSet _ _ _ p hp with hpe | hpm
        · rw [hpe]
          apply nodup_setAdd
          cases hgt : mGet (lpFromStep holders e) e.toAddr with
          | none => exact List.nodup_nil
          | some s => exact hsets1 (e.toAddr, s) (mGet_mem _ _ _ hgt)
        · exact hsets1 p hpm
      · intro a b sa sb id hga hgb hia hib
        rw [mGet_mSet] at hga hgb
        by_cases ha : a = e.toAddr <;> by_cases hb : b = e.toAddr
        · rw [ha, hb]
        · rw [if_pos ha] at hga
          rw [if_neg hb] at hgb
          injection hga with hsa
          rcases (mem_setAdd _ _ _).mp (hsa ▸ hia) with hid | hid
          · exact absurd (hid ▸ hib) (hA b sb hgb)
          · cases hgt : mGet (lpFromStep holders e) e.toAddr with
            | none => rw [hgt] at hid; simp at hid
            | some s =>
              rw [hgt] at hid
              obtain ⟨s0a, hg0a, hi0a⟩ := hB e.toAddr s id hgt (by simpa using hid)
              obtain ⟨s0b, hg0b, hi0b⟩ := hB b sb id hgb hib
              have hab := inv.2.2 e.toAddr b s0a s0b id hg0a hg0b hi0a hi0b
              exact (hb hab.symm).elim
        · rw [if_neg ha] at hga
          rw [if_pos hb] at hgb
          injection hgb with hsb
          rcases (mem_setAdd _ _ _).mp (hsb ▸ hib) with hid | hid
          · exact absurd (hid ▸ hia) (hA a sa hga)
          · cases hgt : mGet (lpFromStep holders e) e.toAddr with
            | none => rw [hgt] at hid; simp at hid
            | some s =>
              rw [hgt] at hid
              obtain ⟨s0b, hg0b, hi0b⟩ := hB e.toAddr s id hgt (by simpa using hid)
              obtain ⟨s0a, hg0a, hi0a⟩ := hB a sa id hga hia
              have hab := inv.2.2 a e.toAddr s0a s0b id hg0a hg0b hi0a hi0b
              exact (ha hab).elim
        · rw [if_neg ha] at hga
          rw [if_neg hb] at hgb
          exact huniq1 a b sa sb id hga hgb hia hib
    · rw [if_neg hto]
      exact ⟨hkeys1, hsets1, huniq1⟩

theorem ownerInv_replay (tokenIdSet : List Nat) :
    ∀ (events : List LPTransferEvent) (holders : OwnerMap), OwnerInv holders →
      ownerConsistentB tokenIdSet holders events = true →
      OwnerInv (events.foldl (applyLPTransfer tokenIdSet) holders) := by
  intro events
  induction events with
  | nil => intro holders inv _; exact inv
  | cons e es ih =>
    intro holders inv h
    rw [ownerConsistentB, Bool.and_eq_true] at h
    obtain ⟨hall, hrec⟩ := h
    have hyp : ∀ p ∈ holders, e.tokenId ∈ p.2 → p.1 = e.fromAddr := by
      intro p hp hm
      have hpp := List.all_eq_true.mp hall p hp
      rw [Bool.or_eq_true] at hpp
      rcases hpp with h1 | h1
      · rw [Bool.not_eq_true'] at h1
        have hc : p.2.contains e.tokenId = true := List.elem_iff.mpr hm
        rw [hc] at h1
        cases h1
      · exact beq_iff_eq.mp h1
    rw [List.foldl_cons]
    exact ih (applyLPTransfer tokenIdSet holders e)
      (ownerInv_applyLPTransfer tokenIdSet holders e inv hyp) hrec

/-- Claim C9: when every position-transfer event's from-address is the
token-id's current owner (or an address owning nothing, e.g. the zero
address for a mint), the replay of `getAllLPHolders` keeps every
tracked token-id in at most one owner's set (the returned records have
pairwise-disjoint token-id sets), and every returned owner entry has a
non-empty token-id set. -/
theorem claim_C9_ownership (tokenIdSet : List Nat) (events : List LPTransferEvent)
    (h : ownerConsistentB tokenIdSet [] events = true) :
    List.Pairwise (fun p q => ∀ id, id ∈ p.tokenIds → id ∉ q.tokenIds)
      (getAllLPHolders tokenIdSet events)
    ∧ ∀ p ∈ getAllLPHolders tokenIdSet events, ¬ p.tokenIds = [] := by
  have hinvEmpty : OwnerInv ([] : OwnerMap) := by
    refine ⟨by simp, ?_, ?_⟩
    · intro p hp
      cases hp
    · intro a b sa sb id hga _ _ _
      cases hga
  have hinv := ownerInv_replay tokenIdSet events [] hinvEmpty h
  have hinv2 : OwnerInv (mDel (events.foldl (applyLPTransfer tokenIdSet) [])
      REVERT_AUTOCOMPOUNDER) := by
    obtain ⟨hkeys, hsets, huniq⟩ := hinv
    refine ⟨keysNodup_mDel _ _ hkeys, ?_, ?_⟩
    · intro p hp
      exact hsets p (List.mem_filter.mp hp).1
    · intro a b sa sb id hga hgb hia hib
      rw [mGet_mDel] at hga hgb
      by_cases ha : a = REVERT_AUTOCOMPOUNDER
      · rw [if_pos ha] at hga
        cases hga
      · rw [if_neg ha] at hga
        by_cases hb : b = REVERT_AUTOCOMPOUNDER
        · rw [if_pos hb] at hgb
          cases hgb
        · rw [if_neg hb] at hgb
          exact huniq a b sa sb id hga hgb hia hib
  obtain ⟨hkeys2, hsets2, huniq2⟩ := hinv2
  have hkeysPW : List.Pairwise (fun p q : Addr × List Nat => ¬ p.1 = q.1)
      (mDel (events.foldl (applyLPTransfer tokenIdSet) []) REVERT_AUTOCOMPOUNDER) :=
    List.pairwise_map.mp hkeys2
  have hdisj : List.Pairwise (fun p q : Addr × List Nat => ∀ id, id ∈ p.2 → id ∉ q.2)
      (mDel (events.foldl (applyLPTransfer tokenIdSet) []) REVERT_AUTOCOMPOUNDER) := by
    refine hkeysPW.imp_of_mem ?_
    intro p q hp hq hne id hip hiq
    exact hne (huniq2 p.1 q.1 p.2 q.2 id
      (mGet_of_mem_nodup _ hkeys2 p hp) (mGet_of_mem_nodup _ hkeys2 q hq) hip hiq)
  constructor
  · apply List.Pairwise.filter
    exact List.Pairwise.map _ (fun p q hpq => hpq) hdisj
  · intro p hp
    simp only [getAllLPHolders, List.mem_filter] at hp
    have hlen := hp.2
    rw [decide_eq_true_eq] at hlen
    exact List.length_pos.mp hlen

unseal Rat.mul Rat.inv Rat.add Rat.sub in
/-- Witness for claim C9: a mint of token-id 1 to one owner followed
by a transfer to a new owner; the hypothesis holds, the final map has
pairwise-disjoint sets and a non-empty entry for the new owner. -/
theorem claim_C9_witness :
    List.Pairwise (fun p q => ∀ id, id ∈ p.tokenIds → id ∉ q.tokenIds)
      (getAllLPHolders [1] [⟨zeroAddr, "0xa", 1⟩, ⟨"0xa", "0xb", 1⟩])
    ∧ ¬ (⟨"0xb", [1]⟩ : LPHolder).tokenIds = [] :=
  ⟨(claim_C9_ownership [1] [⟨zeroAddr, "0xa", 1⟩, ⟨"0xa", "0xb", 1⟩] (by decide)).1,
   (claim_C9_ownership [1] [⟨zeroAddr, "0xa", 1⟩, ⟨"0xa", "0xb", 1⟩] (by decide)).2
      ⟨"0xb", [1]⟩ (by decide)⟩


end DaosWorld
